import Mathlib

/-!
# Verification of the faff-cli time-ledger core

This file is a shallow embedding, in Lean 4, of the parts of the faff-cli
repository that the specification's claims are about:

* the `Log` / `TimelineEntry` / `SummaryEntry` / `Activity` data model and the
  session operations (`src/faff/models/log.py`, `src/faff/models.py`);
* the plan-selection pipeline (`FileSystem.plan_files` in
  `src/faff/core/file_system.py` and `Workspace.get_plans` /
  `Workspace.get_activities` in `src/faff/core/workspace.py`);
* the log serializer and parser (`LogFormatter.format_log` in
  `src/faff/core/log_formatter.py`, `Log.from_dict`);
* the log-writing path (`Workspace.write_log`);
* the retroactive intent editor (`src/faff_cli/intent.py`).

Modelling conventions:

* instants (`pendulum.DateTime`) are integers counting seconds; durations are
  integer numbers of seconds; dates (`pendulum.Date`) are integers counting
  days; timezones are strings.  Only ordering, subtraction and the
  truncation-to-minutes performed by the serializer matter to the claims.
* Python `dict`s are association lists with Python's update semantics
  (overwriting an existing key keeps its position, new keys are appended).
* fallible operations (Python exceptions) return `Option`.
-/

namespace Faff

/-- An instant, as a count of seconds (models `pendulum.DateTime`). -/
abbrev DateTime := Int

/-- A duration in seconds (models `pendulum.Duration`). -/
abbrev Duration := Int

/-- A calendar date, as a count of days (models `pendulum.Date`). -/
abbrev PDate := Int

/-- A timezone, identified by its IANA name (models `pendulum.Timezone`). -/
abbrev Timezone := String

/-- `Activity` from `src/faff/models.py`: an activity you can log time
against.  `name` and `project` are modelled as optional because the loaders
(`SummaryEntry.from_dict`) construct activities with `data.get(...)`, which
yields `None` for absent keys. -/
structure Activity where
  id : String
  name : Option String := none
  project : Option String := none
  meta : List (String × String) := []
deriving DecidableEq, Repr

/-- `TimelineEntry` from `src/faff/models/timeline_entry.py`: a record of time
spent on an activity.  `activity` is optional because `from_dict` obtains it
with `activities.get(...)`.  The source field `end` is called `end_` here
(`end` is a Lean keyword). -/
structure TimelineEntry where
  activity : Option Activity
  start : DateTime
  end_ : Option DateTime := none
  note : Option String := none
deriving DecidableEq, Repr

/-- `TimelineEntry.stop`: returns a copy of the entry closed at `stop_time`. -/
def TimelineEntry.stop (e : TimelineEntry) (stop_time : DateTime) : TimelineEntry :=
  { activity := e.activity, start := e.start, end_ := some stop_time, note := e.note }

/-- `SummaryEntry` from `src/faff/models.py`: a total duration spent on an
activity.  `duration` is an ISO8601 duration string, kept opaque. -/
structure SummaryEntry where
  activity : Activity
  duration : String
  note : Option String := none
deriving DecidableEq, Repr

/-- `Log` from `src/faff/models/log.py`: one day's record of time spent. -/
structure Log where
  date : PDate
  timezone : Timezone
  summary : List SummaryEntry := []
  timeline : List TimelineEntry := []
deriving DecidableEq, Repr

/-- `Log.active_timeline_entry`: the last timeline entry if it is open
(`end is None`), else `None`. -/
def Log.active_timeline_entry (log : Log) : Option TimelineEntry :=
  match log.timeline.getLast? with
  | none => none
  | some latest_entry => if latest_entry.end_ = none then some latest_entry else none

/-- `Log.stop_active_timeline_entry`: closes the *last* timeline entry at
`stop_time`.  The source raises `ValueError` on an empty timeline, modelled as
`none`. -/
def Log.stop_active_timeline_entry (log : Log) (stop_time : DateTime) : Option Log :=
  match log.timeline.getLast? with
  | none => none
  | some latest_entry =>
      some { log with timeline := log.timeline.dropLast ++ [latest_entry.stop stop_time] }

/-- Measure for the recursion in `start_timeline_entry`: the source re-enters
itself once after stopping the active entry, and the stopped log has no active
entry. -/
def Log.startMeasure (log : Log) : Nat :=
  if log.active_timeline_entry.isSome then 1 else 0

/-- `Log.start_timeline_entry` from `src/faff/models/log.py`: if an entry is
active it is first stopped at `start` and the function recurses on the stopped
log (the source's `stopped_log.start_timeline_entry(...)` call); otherwise a
new open entry is appended.  The `none, none` case is unreachable (an active
entry implies a non-empty timeline); it returns `log` vacuously where the
source would have raised. -/
def Log.start_timeline_entry (log : Log) (activity : Activity) (start : DateTime)
    (note : Option String := none) : Log :=
  match _h : log.active_timeline_entry, hs : log.stop_active_timeline_entry start with
  | some _, some stopped_log => stopped_log.start_timeline_entry activity start note
  | some _, none => log
  | none, _ =>
      { log with timeline :=
          log.timeline ++ [{ activity := some activity, start := start, end_ := none, note := note }] }
termination_by log.startMeasure
decreasing_by
  have h0 : stopped_log.active_timeline_entry = none := by
    unfold Log.stop_active_timeline_entry at hs
    cases hl : log.timeline.getLast? with
    | none => rw [hl] at hs; exact absurd hs (by simp)
    | some e =>
        rw [hl] at hs
        have hsl := Option.some_inj.mp hs
        rw [← hsl]
        unfold Log.active_timeline_entry
        simp [TimelineEntry.stop]
  simp [Log.startMeasure, h0, *]

/-- `Log.total_recorded_time` from `src/faff/models/log.py`: sums, over all
timeline entries, `end - start` for closed entries and `now - start` for open
ones.  The source obtains `now` via `pendulum.now(self.timezone)`; here it is
an explicit parameter. -/
def Log.total_recorded_time (log : Log) (now : DateTime) : Duration :=
  log.timeline.foldl
    (fun acc entry =>
      acc + (match entry.end_ with
             | none => now - entry.start
             | some e => e - entry.start))
    0

/-- Spec-side reading of `total_recorded_time` (claim C9): the sum of
`end - start` over the closed timeline entries. -/
def closed_time_sum (log : Log) : Duration :=
  (log.timeline.filterMap (fun e => e.end_.map (fun u => u - e.start))).sum

/-- Spec-side reading of `total_recorded_time` (claim C9): the sum of
`now - start` over the open timeline entries. -/
def open_time_sum (log : Log) (now : DateTime) : Duration :=
  ((log.timeline.filter (fun e => e.end_.isNone)).map (fun e => now - e.start)).sum

/-- `Workspace.stop_timeline_entry` from `src/faff/core/workspace.py`,
restricted to its decision logic: given the log read from disk and the current
instant, it returns the log that gets written (or `none` when nothing is
written) together with the message returned to the caller. -/
def Workspace.stop_timeline_entry (log : Log) (now : DateTime) : Option Log × String :=
  match log.active_timeline_entry with
  | some _ => (log.stop_active_timeline_entry now, "Stopped logging.")
  | none => (none, "No ongoing timeline entries found to stop.")

/-! ## Python dictionaries

Association lists with Python `dict` semantics: `dget` is `d.get(k)`,
`dset` is `d[k] = v` (overwriting keeps the key's position, a new key is
appended at the end). -/

/-- `d.get(k)` on a Python dict. -/
def dget {α : Type} (m : List (String × α)) (k : String) : Option α :=
  (m.find? (fun p => p.1 == k)).map (fun p => p.2)

/-- `d[k] = v` on a Python dict. -/
def dset {α : Type} (m : List (String × α)) (k : String) (v : α) : List (String × α) :=
  if (m.find? (fun p => p.1 == k)).isSome then
    m.map (fun p => if p.1 == k then (k, v) else p)
  else
    m ++ [(k, v)]

/-! ## Plan store -/

/-- `Plan` from `src/faff/models.py`: a collection of activities valid for a
period of time.  `valid_from` is required (`Plan.from_dict` indexes
`data["valid_from"]`); `valid_until` is optional. -/
structure Plan where
  source : String
  valid_from : PDate
  valid_until : Option PDate := none
  activities : List Activity := []
deriving DecidableEq, Repr

/-- A file in the `.faff/plans` directory.  `fsource` and `fileDate` are the
two components of the filename `<source>.<YYYYMMDD>.toml` (matched by
`PLAN_FILENAME_PATTERN` in `FileSystem.plan_files`); `plan` is the parsed
content of the file. -/
structure PlanFile where
  fsource : String
  fileDate : PDate
  plan : Plan
deriving DecidableEq, Repr

/-- The `candidates` dict built by `FileSystem.plan_files` in
`src/faff/core/file_system.py`: per filename source, the greatest filename
date that is `≤ date`. -/
def candidates (dir : List PlanFile) (date : PDate) : List (String × PDate) :=
  dir.foldl
    (fun cands f =>
      if date < f.fileDate then cands
      else
        match dget cands f.fsource with
        | none => dset cands f.fsource f.fileDate
        | some d => if d < f.fileDate then dset cands f.fsource f.fileDate else cands)
    []

/-- `FileSystem.plan_files`: for each source the file named
`<source>.<candidate date>.toml`.  The directory read-back of the
reconstructed path is modelled by `find?` on the listing (filenames in a
directory are unique). -/
def plan_files (dir : List PlanFile) (date : PDate) : List PlanFile :=
  (candidates dir date).filterMap
    (fun c => dir.find? (fun f => f.fsource == c.1 && f.fileDate == c.2))

/-- First half of the loop body of `Workspace.get_plans`:
`if plan.source not in plans.keys(): plans[plan.source] = plan`. -/
def get_plans_insert (plans : List (String × Plan)) (plan : Plan) : List (String × Plan) :=
  if (dget plans plan.source).isNone then dset plans plan.source plan else plans

/-- Second half of the loop body of `Workspace.get_plans`:
`if plans.get(plan.source) and plans[plan.source].valid_from < plan.valid_from:
plans[plan.source] = plan`. -/
def get_plans_replace (plans1 : List (String × Plan)) (plan : Plan) : List (String × Plan) :=
  match dget plans1 plan.source with
  | some p => if p.valid_from < plan.valid_from then dset plans1 plan.source plan else plans1
  | none => plans1

/-- The body of the loop in `Workspace.get_plans`
(`src/faff/core/workspace.py`): skip a plan whose `valid_from` is after the
query date or whose `valid_until` is before it, insert a source not seen yet,
and replace a source's plan when the new one has a strictly greater
`valid_from`. -/
def get_plans_step (date : PDate) (plans : List (String × Plan)) (file : PlanFile) :
    List (String × Plan) :=
  if date < file.plan.valid_from then plans
  else if (match file.plan.valid_until with
           | some u => decide (u < date)
           | none => false) then plans
  else get_plans_replace (get_plans_insert plans file.plan) file.plan

/-- `Workspace.get_plans`: folds `get_plans_step` over the files returned by
`FileSystem.plan_files`. -/
def get_plans (dir : List PlanFile) (date : PDate) : List (String × Plan) :=
  (plan_files dir date).foldl (get_plans_step date) []

/-- `Workspace.get_activities`: the Python dict comprehension
`{activity.id: activity for plan in plans for activity in plan.activities}`
over the values of `get_plans(date)`. -/
def get_activities (dir : List PlanFile) (date : PDate) : List (String × Activity) :=
  (get_plans dir date).foldl
    (fun m sp => sp.2.activities.foldl (fun m a => dset m a.id a) m)
    []

/-- Validity of a plan on a date, as both the spec and `Workspace.get_plans`
state it: `valid_from ≤ date` and (`valid_until` unset or `≥ date`). -/
def validOn (p : Plan) (date : PDate) : Bool :=
  decide (p.valid_from ≤ date) &&
    (match p.valid_until with | none => true | some u => decide (date ≤ u))

/-- Modelled from the spec's words, for comparison with `get_plans` (claim
C1): among **all** stored plan files whose plan belongs to source `s`, the one
with the greatest `valid_from ≤ date` whose `valid_until` (if set) is
`≥ date`; `none` if no file qualifies. -/
def spec_selected_plan (dir : List PlanFile) (date : PDate) (s : String) : Option Plan :=
  dir.foldl
    (fun acc f =>
      if f.plan.source = s ∧ validOn f.plan date then
        match acc with
        | none => some f.plan
        | some q => if q.valid_from < f.plan.valid_from then some f.plan else some q
      else acc)
    none

/-- The single file `plan_files` can return for filename source `s`: the one
with the greatest filename date `≤ date`, if any. -/
def newest_file (dir : List PlanFile) (date : PDate) (s : String) : Option PlanFile :=
  dir.foldl
    (fun acc f =>
      if f.fsource = s ∧ f.fileDate ≤ date then
        match acc with
        | none => some f
        | some g => if g.fileDate < f.fileDate then some f else some g
      else acc)
    none

/-- Combination of two newest-file candidates (spec-side helper for reasoning
about the folds above): keeps the left one on equal dates, mirroring the
strict-improvement replacement in `plan_files`. -/
def pickNewer (a b : Option PlanFile) : Option PlanFile :=
  match a, b with
  | none, r => r
  | some g, none => some g
  | some g, some f => if g.fileDate < f.fileDate then some f else some g

/-- Combination of a candidate date with a newest-file candidate (spec-side
helper): the date the `candidates` dict ends up holding. -/
def mergeDate (d : Option PDate) (r : Option PlanFile) : Option PDate :=
  match r with
  | none => d
  | some f =>
      match d with
      | none => some f.fileDate
      | some d0 => if d0 < f.fileDate then some f.fileDate else some d0

/-! ## Log serializer (`LogFormatter.format_log`) and parser (`Log.from_dict`)

The TOML text is modelled structurally: a `LogDoc` records exactly the
key/value pairs the formatter persists.  Keys beginning with `--`
(`--duration`, `--name`, `--project`, `--date_format`) become `#` comments via
`commentify_derived_values` and are discarded by the parser, so they are not
part of `LogDoc`; neither is the cosmetic `=`-alignment.  The formatter writes
`start`/`end` with the minute-precision pattern `YYYY-MM-DDTHH:mm` (with a
trailing zone offset on DST days, which carries no extra precision), so an
instant of `t` seconds is persisted as its floor minute `Int.fdiv t 60` and
parsed back as that minute times 60. -/

/-- A `[[summary]]` table as persisted by `format_log`: `activity` (the id),
`duration`, and `note` (written only when truthy). -/
structure SummaryDoc where
  activity : String
  duration : String
  note : Option String := none
deriving DecidableEq, Repr

/-- A `[[timeline]]` table as persisted by `format_log`: `activity` (the id),
`start` and optional `end` at minute precision, and `note` (written only when
truthy). -/
structure EntryDoc where
  activity : String
  startMin : Int
  endMin : Option Int := none
  note : Option String := none
deriving DecidableEq, Repr

/-- A persisted log file: the non-comment keys `format_log` emits. -/
structure LogDoc where
  date : PDate
  timezone : Timezone
  summary : List SummaryDoc := []
  timeline : List EntryDoc := []
deriving DecidableEq, Repr

/-- Python truthiness of an optional string: `if entry.note:` skips both
`None` and the empty string. -/
def truthyNote (note : Option String) : Option String :=
  match note with
  | none => none
  | some s => if s = "" then none else some s

/-- Stable insertion of a timeline entry by `start` (an entry goes before the
first strictly later entry, after equal ones inserted earlier). -/
def insertByStart (e : TimelineEntry) : List TimelineEntry → List TimelineEntry
  | [] => [e]
  | x :: xs => if e.start ≤ x.start then e :: x :: xs else x :: insertByStart e xs

/-- `sorted(log.timeline, key=lambda entry: entry.start)`: Python's `sorted`
is stable; a stable insertion sort has the same graph. -/
def sortByStart : List TimelineEntry → List TimelineEntry
  | [] => []
  | x :: xs => insertByStart x (sortByStart xs)

/-- `List.mapM` over `Option`, written out so the claims can induct on it. -/
def mapOpt {α β : Type} (f : α → Option β) : List α → Option (List β)
  | [] => some []
  | x :: xs =>
      match f x, mapOpt f xs with
      | some y, some ys => some (y :: ys)
      | _, _ => none

/-- One summary entry of `format_log`: the source first evaluates
`activities.get(entry.activity.id)` and then dereferences the result
(`activity.project`), so a missing id raises (`none` here); otherwise it
persists `activity` (id), `duration` and a truthy `note`. -/
def format_summary_entry (activities : List (String × Activity)) (e : SummaryEntry) :
    Option SummaryDoc :=
  match dget activities e.activity.id with
  | none => none
  | some _ => some { activity := e.activity.id, duration := e.duration, note := truthyNote e.note }

/-- One timeline entry of `format_log`: `entry.activity.id` raises when the
entry has no activity, `activities.get(id)` is dereferenced next, then
`start`/`end` are written at minute precision and `note` when truthy. -/
def format_timeline_entry (activities : List (String × Activity)) (e : TimelineEntry) :
    Option EntryDoc :=
  match e.activity with
  | none => none
  | some a =>
      match dget activities a.id with
      | none => none
      | some _ =>
          some { activity := a.id,
                 startMin := Int.fdiv e.start 60,
                 endMin := e.end_.map (fun u => Int.fdiv u 60),
                 note := truthyNote e.note }

/-- `LogFormatter.format_log` from `src/faff/core/log_formatter.py`: persists
`date`, `timezone`, the summary entries, and the timeline sorted by `start`. -/
def format_log (log : Log) (activities : List (String × Activity)) : Option LogDoc :=
  match mapOpt (format_summary_entry activities) log.summary,
        mapOpt (format_timeline_entry activities) (sortByStart log.timeline) with
  | some s, some t =>
      some { date := log.date, timezone := log.timezone, summary := s, timeline := t }
  | _, _ => none

/-- `SummaryEntry.from_dict` from `src/faff/models.py`: rebuilds the activity
from the persisted id alone (`name`, `project`, `meta` are not persisted as
data keys, so they come back as `None`/`{}`). -/
def SummaryEntry.from_dict (d : SummaryDoc) : SummaryEntry :=
  { activity := { id := d.activity, name := none, project := none, meta := [] },
    duration := d.duration, note := d.note }

/-- `TimelineEntry.from_dict` from `src/faff/models/timeline_entry.py`:
resolves the activity id via `activities.get`, parses `start`/`end` in the
log's timezone (minute precision times 60 seconds), and reads `note`. -/
def TimelineEntry.from_dict (activities : List (String × Activity)) (_timezone : Timezone)
    (d : EntryDoc) : TimelineEntry :=
  { activity := dget activities d.activity,
    start := d.startMin * 60,
    end_ := d.endMin.map (fun m => m * 60),
    note := d.note }

/-- `Log.from_dict` from `src/faff/models/log.py`. -/
def Log.from_dict (doc : LogDoc) (activities : List (String × Activity)) : Log :=
  { date := doc.date,
    timezone := doc.timezone,
    summary := doc.summary.map SummaryEntry.from_dict,
    timeline := doc.timeline.map (TimelineEntry.from_dict activities doc.timezone) }

/-! ## Log writing (`Workspace.write_log`) as a file-system trace -/

/-- A primitive file-system operation observable by a concurrent reader. -/
inductive FsOp where
  | truncate (path : String)
  | write (path : String) (content : LogDoc)
  | rename (src : String) (dst : String)
deriving DecidableEq, Repr

/-- `FileSystem.log_path`: `logs/<date>.toml`. -/
def log_path (date : PDate) : String := "logs/" ++ toString date ++ ".toml"

/-- `Workspace.write_log` from `src/faff/core/workspace.py` as the sequence of
file-system operations it performs: `open(log_filename, "w")` truncates the
target in place, then `f.write(log_contents)` fills it.  When `format_log`
raises, nothing is opened. -/
def write_log_ops (log : Log) (activities : List (String × Activity)) : List FsOp :=
  match format_log log activities with
  | none => []
  | some doc => [FsOp.truncate (log_path log.date), FsOp.write (log_path log.date) doc]

/-- What a reader finds in a file: nothing yet (truncated/empty) or a full
document. -/
inductive FileContent where
  | empty
  | full (doc : LogDoc)
deriving DecidableEq, Repr

/-- A file system: contents per path. -/
abbrev FsState := List (String × FileContent)

/-- Remove a key from a dict (the vacated source path of a rename). -/
def dremove (m : FsState) (k : String) : FsState :=
  m.filter (fun p => p.1 ≠ k)

/-- Effect of one operation on the file system. -/
def applyOp (st : FsState) (op : FsOp) : FsState :=
  match op with
  | FsOp.truncate p => dset st p FileContent.empty
  | FsOp.write p c => dset st p (FileContent.full c)
  | FsOp.rename src dst =>
      match dget st src with
      | none => st
      | some c => dset (dremove st src) dst c

/-- Effect of a sequence of operations. -/
def applyOps (st : FsState) (ops : List FsOp) : FsState :=
  ops.foldl applyOp st

/-- The write pattern claimed by the spec for every log write: the bytes go to
a sibling temporary file which is then renamed over the target. -/
def atomic_temp_rename (ops : List FsOp) (target : String) : Prop :=
  ∃ tmp content, tmp ≠ target ∧ ops = [FsOp.write tmp content, FsOp.rename tmp target]

/-! ## Session-order invariant and reachability (claim C6)

The spec's state machine (§4.5) allows `start(t)` from Empty with `t ≤ now`,
from Closed with `t ≥ last.end`, from Open with `t ≥ current.start` (closing
the current session at `t`), and `stop(t)` from Open with
`t ≥ current.start`.  `now` only bounds `t` from above and plays no role in
the ordering invariant, so it is not modelled. -/

/-- The state machine's precondition on the instant of a `start(t)` event:
trivial from Empty, `t ≥ last.end` from Closed, `t ≥ current.start` from
Open. -/
def startPrecond (log : Log) (t : DateTime) : Prop :=
  match log.timeline.getLast? with
  | none => True
  | some last =>
      match last.end_ with
      | some e => e ≤ t
      | none => last.start ≤ t

/-- The state machine's precondition on the instant of a `stop(t)` event: an
open session exists and `t ≥ current.start`. -/
def stopPrecond (log : Log) (t : DateTime) : Prop :=
  match log.active_timeline_entry with
  | some e => e.start ≤ t
  | none => False

/-- Logs reachable from an empty day through the session operations, each
taken under its state-machine precondition. -/
inductive Reachable : Log → Prop where
  | empty (date : PDate) (timezone : Timezone) :
      Reachable { date := date, timezone := timezone, summary := [], timeline := [] }
  | start (log : Log) (a : Activity) (t : DateTime) (note : Option String) :
      Reachable log → startPrecond log t →
      Reachable (log.start_timeline_entry a t note)
  | stop (log : Log) (t : DateTime) (log' : Log) :
      Reachable log → stopPrecond log t →
      log.stop_active_timeline_entry t = some log' →
      Reachable log'

/-- The timeline is strictly sorted by `start`. -/
def startsStrictSorted (log : Log) : Prop :=
  List.Chain' (fun a b : TimelineEntry => a.start < b.start) log.timeline

/-- The timeline is sorted by `start` (non-strictly). -/
def startsSorted (log : Log) : Prop :=
  List.Chain' (fun a b : TimelineEntry => a.start ≤ b.start) log.timeline

/-- `start ≤ end` for every closed entry. -/
def closedEntriesOrdered (log : Log) : Prop :=
  ∀ e ∈ log.timeline, ∀ u, e.end_ = some u → e.start ≤ u

/-- Every entry except possibly the last is closed; equivalently at most one
entry is open and it sits at index `len - 1`. -/
def openOnlyLast (log : Log) : Prop :=
  ∀ e ∈ log.timeline.dropLast, e.end_.isSome

/-- The session-order invariant exactly as the claim states it (strict
sorting). -/
def session_order_invariant (log : Log) : Prop :=
  startsStrictSorted log ∧ closedEntriesOrdered log ∧ openOnlyLast log

/-- The session-order invariant with non-strict sorting. -/
def weak_session_order_invariant (log : Log) : Prop :=
  startsSorted log ∧ closedEntriesOrdered log ∧ openOnlyLast log

/-- The log states named by the spec's state machine: Empty (no sessions). -/
def Log.EmptyState (log : Log) : Prop := log.timeline = []

/-- Closed: at least one session and the last one has an `end`. -/
def Log.ClosedState (log : Log) : Prop :=
  ∃ e, log.timeline.getLast? = some e ∧ e.end_.isSome

end Faff

namespace FaffCli

/-!
## The retroactive intent editor (`src/faff_cli/intent.py`)

This part of the repository belongs to the newer CLI generation, in which log
files carry sessions embedding intent fields.  `update_intent_in_log`,
`find_logs_using_intent` and the retroactive loop of the `edit` command
manipulate the raw TOML dictionaries (`toml.load` / `toml.dump`), modelled
structurally below.
-/

/-- `Intent` (from `faff_core.models`, as constructed by `toml_to_intent` in
`src/faff_cli/intent.py`): `intent_id`, optional descriptors, and an ordered
list of tracker ids. -/
structure Intent where
  intent_id : String
  alias_ : Option String := none
  role : Option String := none
  objective : Option String := none
  action : Option String := none
  subject : Option String := none
  trackers : List String := []
deriving DecidableEq, Repr

/-- A TOML value in a session's `trackers` key.  `update_intent_in_log`
assigns a *string* (`updated_intent.trackers[0]` or `""`) where a session may
have held a list. -/
inductive TrackersVal where
  | str (s : String)
  | list (ts : List String)
deriving DecidableEq, Repr

/-- One `[[timeline]]` table of a log file as `toml.load` yields it: the keys
`update_intent_in_log` touches, plus `rest` for every other key (`start`,
`end`, `note`, …), which the function never writes. -/
structure Session where
  intent_id : Option String := none
  alias_ : Option String := none
  role : Option String := none
  objective : Option String := none
  action : Option String := none
  subject : Option String := none
  trackers : Option TrackersVal := none
  rest : List (String × String) := []
deriving DecidableEq, Repr

/-- A parsed log file: its `timeline` array if the key is present, and every
other top-level key. -/
structure LogData where
  timeline : Option (List Session) := none
  rest : List (String × String) := []
deriving DecidableEq, Repr

/-- The body of the session loop in `update_intent_in_log`: a session whose
`intent_id` equals the target gets the new intent's fields, with `trackers`
set to `updated_intent.trackers[0] if updated_intent.trackers else ""`; other
sessions are untouched. -/
def update_session (intent_id : String) (updated : Intent) (s : Session) : Session :=
  if s.intent_id = some intent_id then
    { s with
        alias_ := updated.alias_,
        role := updated.role,
        objective := updated.objective,
        action := updated.action,
        subject := updated.subject,
        trackers := some (TrackersVal.str (updated.trackers.headD "")) }
  else s

/-- `update_intent_in_log` from `src/faff_cli/intent.py`: rewrites every
matching session, counts them, and writes the file back only when the count is
positive (when it is zero the rewrite is the identity).  Returns the new file
content and the count. -/
def update_intent_in_log (logd : LogData) (intent_id : String) (updated : Intent) :
    LogData × Nat :=
  match logd.timeline with
  | none => (logd, 0)
  | some tl =>
      let updated_count := (tl.filter (fun s => s.intent_id = some intent_id)).length
      let tl' := tl.map (update_session intent_id updated)
      (if 0 < updated_count then { logd with timeline := some tl' } else logd, updated_count)

/-- `find_logs_using_intent` from `src/faff_cli/intent.py`: the `(log, count)`
pairs, in directory order, for logs that contain at least one session with the
given `intent_id`.  Logs are identified by their date (the file stem). -/
def find_logs_using_intent (logs : List (Faff.PDate × LogData)) (intent_id : String) :
    List (Faff.PDate × Nat) :=
  logs.filterMap
    (fun dl =>
      match dl.2.timeline with
      | none => none
      | some tl =>
          let session_count := (tl.filter (fun s => s.intent_id = some intent_id)).length
          if 0 < session_count then some (dl.1, session_count) else none)

/-- The retroactive branch of the `edit` command: every log found by
`find_logs_using_intent` is rewritten by `update_intent_in_log`; the summary
of `(log_date, count)` pairs is reported.  Logs not in the found list are not
touched. -/
def apply_retroactive (logs : List (Faff.PDate × LogData)) (intent_id : String)
    (updated : Intent) : List (Faff.PDate × LogData) × List (Faff.PDate × Nat) :=
  (logs.map
    (fun dl =>
      if (find_logs_using_intent logs intent_id).any (fun p => p.1 == dl.1) then
        (dl.1, (update_intent_in_log dl.2 intent_id updated).1)
      else dl),
   find_logs_using_intent logs intent_id)

end FaffCli

namespace Faff

/-! ## Concrete instances used by witnesses and counterexamples -/

/-- A sample activity, id `a`. -/
def actA : Activity := { id := "a", name := some "Activity A" }

/-- Scenario S1 of the spec: one closed session 09:00–10:30 UTC
(start 32400 s, end 37800 s into the day). -/
def s1log : Log :=
  { date := 0, timezone := "UTC", summary := [],
    timeline := [{ activity := some actA, start := 32400, end_ := some 37800 }] }

/-- A day with one *open* session started at 09:00. -/
def openLog : Log :=
  { date := 0, timezone := "UTC", summary := [],
    timeline := [{ activity := some actA, start := 32400 }] }

/-- The empty day. -/
def emptyLog : Log := { date := 0, timezone := "UTC", summary := [], timeline := [] }

/-- The activities map registering `actA` under its id. -/
def actsA : List (String × Activity) := [("a", actA)]

/-- A valid log whose session starts at 09:00:*30* — a sub-minute instant
(32430 s).  Used to refute the round-trip claim C2. -/
def secLog : Log :=
  { date := 0, timezone := "UTC", summary := [],
    timeline := [{ activity := some actA, start := 32430, end_ := some 37800 }] }

/-- Plan files for claim C1: source `s` has an old file (date 1, unbounded
validity) and a newer file (date 10) whose plan expires on day 12. -/
def planOld : Plan := { source := "s", valid_from := 1, valid_until := none }

/-- The newer plan of source `s`, valid only through day 12. -/
def planNew : Plan := { source := "s", valid_from := 10, valid_until := some 12 }

/-- The plan directory of claim C1's counterexample. -/
def exDir : List PlanFile := [⟨"s", 1, planOld⟩, ⟨"s", 10, planNew⟩]

/-- Claim C8: activity id `a` as contributed by source `s1`. -/
def actA1 : Activity := { id := "a", name := some "from s1" }

/-- Claim C8: a *different* activity with the same id `a`, from source `s2`. -/
def actA2 : Activity := { id := "a", name := some "from s2" }

/-- Claim C8: the plan of source `s1`. -/
def planS1 : Plan := { source := "s1", valid_from := 1, activities := [actA1] }

/-- Claim C8: the plan of source `s2`. -/
def planS2 : Plan := { source := "s2", valid_from := 1, activities := [actA2] }

/-- Claim C8: a plan directory with an `intent_id` collision between two
sources both valid on the query date. -/
def exDir2 : List PlanFile := [⟨"s1", 1, planS1⟩, ⟨"s2", 1, planS2⟩]

/-- Claim C6's counterexample state: the log obtained from an empty day by
`start(a, t=0)` twice in a row (allowed by the `t ≥ current.start`
precondition): a zero-length closed session and an open session share the
start instant 0. -/
def twiceLog : Log :=
  { date := 0, timezone := "UTC", summary := [],
    timeline := [{ activity := some actA, start := 0, end_ := some 0 },
                 { activity := some actA, start := 0 }] }

/-- The intermediate log of claim C6's counterexample: one open session
started at instant 0. -/
def onceLog : Log :=
  { date := 0, timezone := "UTC", summary := [],
    timeline := [{ activity := some actA, start := 0 }] }

/-- Claim C7: the old content of the log file before the write, as seen by a
concurrent reader. -/
def oldDoc : LogDoc := { date := 0, timezone := "UTC", summary := [], timeline := [] }

/-- Claim C7: a file system whose log file holds the old content. -/
def exSt0 : FsState := [(log_path (0 : PDate), FileContent.full oldDoc)]

end Faff

namespace FaffCli

/-- Claim C3: the edited intent, carrying two trackers. -/
def exIntent : Intent :=
  { intent_id := "local:i-001", alias_ := some "a", role := some "r",
    objective := some "dev:feature", action := some "act", subject := some "subj",
    trackers := ["t1", "t2"] }

/-- Claim C3: a historical session recorded under `local:i-001`. -/
def exSession : Session :=
  { intent_id := some "local:i-001", alias_ := some "old", role := some "oldr",
    objective := some "dev:bugfix", action := none, subject := none,
    trackers := some (TrackersVal.list ["old-tracker"]),
    rest := [("start", "2025-01-15T09:00")] }

/-- Claim C3: a session recorded under a *different* intent. -/
def otherSession : Session :=
  { intent_id := some "local:i-002", trackers := some (TrackersVal.list ["x"]),
    rest := [("start", "2025-01-15T11:00")] }

/-- Claim C3: a log file containing one matching and one non-matching
session. -/
def exLogData : LogData :=
  { timeline := some [exSession, otherSession], rest := [("date", "2025-01-15")] }

end FaffCli

namespace Faff

/-! ## Helper lemmas -/

theorem dget_nil {α : Type} (i : String) : dget ([] : List (String × α)) i = none := rfl

theorem dget_cons {α : Type} (p : String × α) (m : List (String × α)) (i : String) :
    dget (p :: m) i = if p.1 = i then some p.2 else dget m i := by
  by_cases h : p.1 = i
  · unfold dget
    rw [List.find?_cons_of_pos _ (by simp [h])]
    simp [h]
  · unfold dget
    rw [List.find?_cons_of_neg _ (by simp [h])]
    rw [if_neg h]

theorem dget_append_right {α : Type} (m : List (String × α)) (l : List (String × α)) (i : String)
    (h : dget m i = none) : dget (m ++ l) i = dget l i := by
  induction m with
  | nil => simp
  | cons p rest ih =>
      rw [List.cons_append, dget_cons]
      rw [dget_cons] at h
      by_cases hp : p.1 = i
      · rw [if_pos hp] at h; exact absurd h (by simp)
      · rw [if_neg hp] at h; rw [if_neg hp]; exact ih h

theorem find?_isSome_of_dget {α : Type} (m : List (String × α)) (i : String)
    (h : ¬ (m.find? (fun p => p.1 == i)).isSome) : dget m i = none := by
  rw [Option.not_isSome_iff_eq_none] at h
  unfold dget
  rw [h]
  rfl

theorem dget_map_set {α : Type} (m : List (String × α)) (k : String) (v : α) :
    dget (m.map (fun p => if p.1 == k then (k, v) else p)) k =
      if (m.find? (fun p => p.1 == k)).isSome then some v else none := by
  induction m with
  | nil => simp [dget_nil]
  | cons p rest ih =>
      by_cases hp : p.1 = k
      · rw [List.map_cons, if_pos (by simp [hp])]
        rw [dget_cons, if_pos rfl]
        rw [List.find?_cons_of_pos _ (by simp [hp])]
        simp
      · rw [List.map_cons, if_neg (by simp [hp])]
        rw [dget_cons, if_neg hp]
        rw [List.find?_cons_of_neg _ (by simp [hp])]
        exact ih

theorem dget_map_set_ne {α : Type} (m : List (String × α)) (k i : String) (v : α)
    (hik : i ≠ k) :
    dget (m.map (fun p => if p.1 == k then (k, v) else p)) i = dget m i := by
  induction m with
  | nil => simp
  | cons p rest ih =>
      by_cases hp : p.1 = k
      · rw [List.map_cons, if_pos (by simp [hp])]
        rw [dget_cons, dget_cons]
        rw [if_neg (fun h : k = i => hik h.symm)]
        rw [if_neg (fun h : p.1 = i => hik (hp ▸ h).symm)]
        exact ih
      · rw [List.map_cons, if_neg (by simp [hp])]
        rw [dget_cons, dget_cons]
        by_cases hpi : p.1 = i
        · rw [if_pos hpi, if_pos hpi]
        · rw [if_neg hpi, if_neg hpi]
          exact ih

theorem dget_dset_self {α : Type} (m : List (String × α)) (k : String) (v : α) :
    dget (dset m k v) k = some v := by
  unfold dset
  by_cases hf : (m.find? (fun p => p.1 == k)).isSome
  · rw [if_pos hf, dget_map_set, if_pos hf]
  · rw [if_neg hf]
    rw [dget_append_right m _ k (find?_isSome_of_dget m k hf), dget_cons]
    simp

theorem dget_dset_ne {α : Type} (m : List (String × α)) (k i : String) (v : α) (hik : i ≠ k) :
    dget (dset m k v) i = dget m i := by
  unfold dset
  by_cases hf : (m.find? (fun p => p.1 == k)).isSome
  · rw [if_pos hf, dget_map_set_ne m k i v hik]
  · rw [if_neg hf]
    by_cases hm : (m.find? (fun p => p.1 == i)).isSome
    · unfold dget
      rw [List.find?_append]
      obtain ⟨p, hp⟩ := Option.isSome_iff_exists.mp hm
      rw [hp]
      rfl
    · have hnone := find?_isSome_of_dget m i hm
      rw [dget_append_right m _ i hnone, hnone, dget_cons]
      rw [if_neg (fun h : k = i => hik h.symm)]
      rfl

/-- `dget` after `dset`, combined. -/
theorem dget_dset {α : Type} (m : List (String × α)) (k i : String) (v : α) :
    dget (dset m k v) i = if i = k then some v else dget m i := by
  by_cases hik : i = k
  · rw [if_pos hik, hik, dget_dset_self]
  · rw [if_neg hik, dget_dset_ne m k i v hik]

/-- Unfolding `start_timeline_entry` on a log with no active entry. -/
theorem start_eq_of_no_active (log : Log) (a : Activity) (t : DateTime)
    (note : Option String) (h : log.active_timeline_entry = none) :
    log.start_timeline_entry a t note =
      { log with timeline :=
          log.timeline ++ [{ activity := some a, start := t, end_ := none, note := note }] } := by
  unfold Log.start_timeline_entry
  split
  · next he _hs => rw [h] at he; exact absurd he (by simp)
  · next he _hs => rw [h] at he; exact absurd he (by simp)
  · rfl

/-- `stop_active_timeline_entry` on a log whose last entry is `e`. -/
theorem stop_eq_of_getLast (log : Log) (t : DateTime) (e : TimelineEntry)
    (h : log.timeline.getLast? = some e) :
    log.stop_active_timeline_entry t =
      some { log with timeline := log.timeline.dropLast ++ [e.stop t] } := by
  unfold Log.stop_active_timeline_entry
  rw [h]

/-- An active entry is the last entry and is open. -/
theorem getLast_of_active (log : Log) (e : TimelineEntry)
    (h : log.active_timeline_entry = some e) :
    log.timeline.getLast? = some e ∧ e.end_ = none := by
  unfold Log.active_timeline_entry at h
  cases hl : log.timeline.getLast? with
  | none => rw [hl] at h; exact absurd h (by simp)
  | some x =>
      rw [hl] at h
      have h' : (if x.end_ = none then some x else none) = some e := h
      by_cases hx : x.end_ = none
      · rw [if_pos hx] at h'
        have hxe := Option.some_inj.mp h'
        subst hxe
        exact ⟨rfl, hx⟩
      · rw [if_neg hx] at h'
        exact absurd h' (by simp)

/-- Unfolding `start_timeline_entry` on a log with active entry `e`. -/
theorem start_eq_of_active (log : Log) (a : Activity) (t : DateTime)
    (note : Option String) (e : TimelineEntry) (h : log.active_timeline_entry = some e) :
    log.start_timeline_entry a t note =
      { log with timeline :=
          log.timeline.dropLast ++
            [e.stop t, { activity := some a, start := t, end_ := none, note := note }] } := by
  obtain ⟨hlast, _hopen⟩ := getLast_of_active log e h
  have hstop := stop_eq_of_getLast log t e hlast
  unfold Log.start_timeline_entry
  split
  · next he hs =>
      rw [hstop] at hs
      have hsl := Option.some_inj.mp hs
      rw [← hsl]
      have hact : ({ log with timeline := log.timeline.dropLast ++ [e.stop t] } : Log).active_timeline_entry = none := by
        unfold Log.active_timeline_entry
        simp [TimelineEntry.stop]
      rw [start_eq_of_no_active _ a t note hact]
      simp
  · next he hs => rw [hstop] at hs; exact absurd hs (by simp)
  · next he => rw [h] at he; exact absurd he (by simp)

/-- The fold of `total_recorded_time`, over any accumulator, decomposes into
the closed-entry and open-entry sums. -/
theorem timeline_fold_split (now : DateTime) (l : List TimelineEntry) :
    ∀ acc : Duration,
      l.foldl
        (fun acc entry =>
          acc + (match entry.end_ with
                 | none => now - entry.start
                 | some e => e - entry.start))
        acc
      = acc + (l.filterMap (fun e => e.end_.map (fun u => u - e.start))).sum
          + ((l.filter (fun e => e.end_.isNone)).map (fun e => now - e.start)).sum := by
  induction l with
  | nil => intro acc; simp
  | cons e rest ih =>
      intro acc
      cases he : e.end_ with
      | none =>
          simp only [List.foldl_cons, he, List.filterMap_cons, List.filter_cons,
            Option.map_none', Option.isNone_none]
          rw [ih]
          simp
          ring
      | some u =>
          simp only [List.foldl_cons, he, List.filterMap_cons, List.filter_cons,
            Option.map_some', Option.isNone_some]
          rw [ih]
          simp
          ring

end Faff

namespace Faff

/-! ## Claim theorems: session operations -/

/-- C9: for every Log, `total_recorded_time` equals the sum of `end - start`
over all closed timeline entries plus the sum of `now - start` over the open
ones; in particular, for a log containing exactly one closed session from
09:00 to 10:30 it returns 1 hour 30 minutes (5400 seconds) and the log
reports itself closed (no active entry). -/
theorem total_recorded_time_decomposes :
    (∀ (log : Log) (now : DateTime),
        log.total_recorded_time now = closed_time_sum log + open_time_sum log now) ∧
      s1log.total_recorded_time 40000 = 5400 ∧
      s1log.active_timeline_entry = none := by
  refine ⟨?_, by decide, by decide⟩
  intro log now
  unfold Log.total_recorded_time closed_time_sum open_time_sum
  rw [timeline_fold_split now log.timeline 0]
  simp

/-- C5: stopping closes the open session when one exists; on a Closed or
Empty log the stop operation is rejected (nothing is written, so no timeline
entry — in particular no already-set end instant — is modified). -/
theorem stop_rejected_unless_active :
    ∀ (log : Log) (now : DateTime),
      ((log.EmptyState ∨ log.ClosedState) →
        Workspace.stop_timeline_entry log now =
          (none, "No ongoing timeline entries found to stop.")) ∧
      (∀ e, log.active_timeline_entry = some e →
        (Workspace.stop_timeline_entry log now).1 =
          some { log with timeline := log.timeline.dropLast ++ [e.stop now] }) := by
  intro log now
  constructor
  · intro h
    have hnone : log.active_timeline_entry = none := by
      unfold Log.active_timeline_entry
      cases h with
      | inl hempty =>
          unfold Log.EmptyState at hempty
          rw [hempty]
          rfl
      | inr hclosed =>
          obtain ⟨e, hlast, hsome⟩ := hclosed
          rw [hlast]
          have hne : ¬ e.end_ = none := by
            intro hn
            rw [hn] at hsome
            exact absurd hsome (by simp)
          show (if e.end_ = none then some e else none) = none
          rw [if_neg hne]
    unfold Workspace.stop_timeline_entry
    rw [hnone]
  · intro e he
    obtain ⟨hlast, _⟩ := getLast_of_active log e he
    unfold Workspace.stop_timeline_entry
    rw [he, stop_eq_of_getLast log now e hlast]

/-- Witness for C5: the closed one-session log `s1log` is rejected, and the
open log `openLog` gets its session closed at the stop instant. -/
theorem stop_rejected_unless_active_witness :
    Workspace.stop_timeline_entry s1log 40000 =
      (none, "No ongoing timeline entries found to stop.") ∧
    (Workspace.stop_timeline_entry openLog 37800).1 =
      some { openLog with
               timeline := [{ activity := some actA, start := 32400, end_ := some 37800 }] } := by
  constructor
  · exact (stop_rejected_unless_active s1log 40000).1
      (Or.inr ⟨{ activity := some actA, start := 32400, end_ := some 37800 }, by decide, by decide⟩)
  · have h := (stop_rejected_unless_active openLog 37800).2
      { activity := some actA, start := 32400 } (by decide)
    rw [h]
    decide

/-- C4: for every Log whose last timeline entry is open and every start
instant `t ≥` the open entry's start, starting a new session at `t` closes the
open entry at exactly `t` and appends a new open entry starting at `t` as the
last element — back-to-back, the closed entry's end coinciding with the new
entry's start, with no other timeline entry altered. -/
theorem continue_law (log : Log) (a : Activity) (t : DateTime) (note : Option String)
    (e : TimelineEntry) (hactive : log.active_timeline_entry = some e)
    (_hle : e.start ≤ t) :
    (log.start_timeline_entry a t note).timeline =
      log.timeline.dropLast ++
        [e.stop t, { activity := some a, start := t, end_ := none, note := note }] ∧
    (e.stop t).end_ = some t ∧
    (e.stop t).start = e.start ∧ (e.stop t).activity = e.activity ∧ (e.stop t).note = e.note ∧
    (log.start_timeline_entry a t note).active_timeline_entry =
      some { activity := some a, start := t, end_ := none, note := note } := by
  rw [start_eq_of_active log a t note e hactive]
  refine ⟨rfl, rfl, rfl, rfl, rfl, ?_⟩
  unfold Log.active_timeline_entry
  rw [show (log.timeline.dropLast ++
        [e.stop t, { activity := some a, start := t, end_ := none, note := note }])
      = (log.timeline.dropLast ++ [e.stop t]) ++
        [{ activity := some a, start := t, end_ := none, note := note }] by
    rw [List.append_assoc]
    rfl]
  rw [List.getLast?_concat]
  rfl

/-- Witness for C4: continuing `openLog` (open since 09:00) at 10:30 yields
the two back-to-back entries. -/
theorem continue_law_witness :
    (openLog.start_timeline_entry actA 37800 none).timeline =
      [{ activity := some actA, start := 32400, end_ := some 37800 },
       { activity := some actA, start := 37800, end_ := none, note := none }] := by
  have h := continue_law openLog actA 37800 none
    { activity := some actA, start := 32400 } (by decide) (by decide)
  rw [h.1]
  decide

/-- C10: the session operations are frame-preserving: `start_timeline_entry`
keeps `date`, `timezone` and `summary` and only closes the last entry and/or
appends one new entry; `stop_active_timeline_entry`, when it returns a log,
keeps `date`, `timezone` and `summary` and only replaces the last entry by its
closed copy. -/
theorem session_ops_frame :
    ∀ (log : Log) (a : Activity) (t : DateTime) (note : Option String),
      ((log.start_timeline_entry a t note).date = log.date ∧
       (log.start_timeline_entry a t note).timezone = log.timezone ∧
       (log.start_timeline_entry a t note).summary = log.summary ∧
       ((log.active_timeline_entry = none ∧
           (log.start_timeline_entry a t note).timeline =
             log.timeline ++ [{ activity := some a, start := t, end_ := none, note := note }]) ∨
        (∃ e, log.active_timeline_entry = some e ∧
           (log.start_timeline_entry a t note).timeline =
             log.timeline.dropLast ++
               [e.stop t, { activity := some a, start := t, end_ := none, note := note }]))) ∧
      (∀ log', log.stop_active_timeline_entry t = some log' →
         log'.date = log.date ∧ log'.timezone = log.timezone ∧ log'.summary = log.summary ∧
         ∃ e, log.timeline.getLast? = some e ∧
           log'.timeline = log.timeline.dropLast ++ [e.stop t]) := by
  intro log a t note
  constructor
  · cases hact : log.active_timeline_entry with
    | none =>
        rw [start_eq_of_no_active log a t note hact]
        exact ⟨rfl, rfl, rfl, Or.inl ⟨rfl, rfl⟩⟩
    | some e =>
        rw [start_eq_of_active log a t note e hact]
        exact ⟨rfl, rfl, rfl, Or.inr ⟨e, rfl, rfl⟩⟩
  · intro log' hstop
    unfold Log.stop_active_timeline_entry at hstop
    cases hl : log.timeline.getLast? with
    | none => rw [hl] at hstop; exact absurd hstop (by simp)
    | some e =>
        rw [hl] at hstop
        have h := Option.some_inj.mp hstop
        rw [← h]
        exact ⟨rfl, rfl, rfl, e, rfl, rfl⟩

/-- Witness for C10: frame preservation evaluated on `openLog` for a start at
10:30 and a stop at 10:30. -/
theorem session_ops_frame_witness :
    (openLog.start_timeline_entry actA 37800 none).summary = openLog.summary ∧
    ({ openLog with
         timeline := [{ activity := some actA, start := 32400, end_ := some 37800 }] } : Log).date
      = openLog.date := by
  constructor
  · exact (session_ops_frame openLog actA 37800 none).1.2.2.1
  · exact ((session_ops_frame openLog actA 37800 none).2
      { openLog with
          timeline := [{ activity := some actA, start := 32400, end_ := some 37800 }] }
      (by decide)).1

end Faff

namespace FaffCli

/-- C3 (code bug): evaluating `update_intent_in_log` at a log holding one
session under `local:i-001` (and one under another intent), with an updated
intent carrying trackers `["t1", "t2"]`: the matching session receives the new
role/objective/action/subject with `intent_id` untouched, the non-matching
session is unchanged, and the count is returned — but the session's `trackers`
key is set to the single *string* `"t1"` (`updated_intent.trackers[0]`), not
the full trackers list. -/
theorem update_intent_in_log_first_tracker_only :
    update_intent_in_log exLogData "local:i-001" exIntent =
      ({ timeline := some
           [{ intent_id := some "local:i-001", alias_ := some "a", role := some "r",
              objective := some "dev:feature", action := some "act", subject := some "subj",
              trackers := some (TrackersVal.str "t1"),
              rest := [("start", "2025-01-15T09:00")] },
            otherSession],
         rest := [("date", "2025-01-15")] }, 1) ∧
    (∀ ts : List String, TrackersVal.str "t1" ≠ TrackersVal.list ts) ∧
    exIntent.trackers = ["t1", "t2"] := by
  refine ⟨by decide, fun ts => by simp, by decide⟩

end FaffCli

namespace Faff

/-- C7 (counterexample): `Workspace.write_log` does not follow the
temp-file-plus-rename pattern.  On the concrete log `s1log` its trace is a
truncate of the target followed by an in-place write, which does not match
`atomic_temp_rename`; moreover a reader that observes the file system after
the truncate sees an empty file — neither the old nor the new content. -/
theorem write_log_not_atomic :
    ¬ atomic_temp_rename (write_log_ops s1log actsA) (log_path s1log.date) ∧
    dget (applyOps exSt0 ((write_log_ops s1log actsA).take 1)) (log_path (0 : PDate)) =
      some FileContent.empty ∧
    FileContent.empty ≠ FileContent.full oldDoc := by
  have hops : write_log_ops s1log actsA =
      [FsOp.truncate (log_path (0 : PDate)),
       FsOp.write (log_path (0 : PDate))
         { date := 0, timezone := "UTC", summary := [],
           timeline := [{ activity := "a", startMin := 540, endMin := some 630 }] }] := by
    decide
  refine ⟨?_, by decide, by decide⟩
  intro hat
  obtain ⟨tmp, c, _hne, heq⟩ := hat
  rw [hops] at heq
  exact absurd (List.head_eq_of_cons_eq heq) (by simp)

/-- C7 (amended): `write_log` performs a single direct write: when formatting
succeeds its trace is exactly a truncate of the target log path followed by a
write of the new content there (no temporary file, no rename), and afterwards
the file system maps the log path to the new content. -/
theorem write_log_direct_write :
    ∀ (log : Log) (activities : List (String × Activity)) (doc : LogDoc),
      format_log log activities = some doc →
      write_log_ops log activities =
        [FsOp.truncate (log_path log.date), FsOp.write (log_path log.date) doc] ∧
      ∀ st : FsState,
        dget (applyOps st (write_log_ops log activities)) (log_path log.date) =
          some (FileContent.full doc) := by
  intro log activities doc h
  have hops : write_log_ops log activities =
      [FsOp.truncate (log_path log.date), FsOp.write (log_path log.date) doc] := by
    unfold write_log_ops
    rw [h]
  refine ⟨hops, ?_⟩
  intro st
  rw [hops]
  unfold applyOps
  rw [List.foldl_cons, List.foldl_cons, List.foldl_nil]
  unfold applyOp
  rw [dget_dset_self]

/-- Witness for the amended C7 on the concrete log `s1log`. -/
theorem write_log_direct_write_witness :
    write_log_ops s1log actsA =
      [FsOp.truncate (log_path s1log.date),
       FsOp.write (log_path s1log.date)
         { date := 0, timezone := "UTC", summary := [],
           timeline := [{ activity := "a", startMin := 540, endMin := some 630 }] }] ∧
    dget (applyOps exSt0 (write_log_ops s1log actsA)) (log_path s1log.date) =
      some (FileContent.full
        { date := 0, timezone := "UTC", summary := [],
          timeline := [{ activity := "a", startMin := 540, endMin := some 630 }] }) := by
  have h := write_log_direct_write s1log actsA
    { date := 0, timezone := "UTC", summary := [],
      timeline := [{ activity := "a", startMin := 540, endMin := some 630 }] }
    (by decide)
  exact ⟨h.1, h.2 exSt0⟩

/-- C8 (counterexample): two plans from different sources, both valid on day
5, carry different activities with the same id `a`; `get_plans` selects both,
and `get_activities` raises no error — it silently returns the second
source's activity for id `a`. -/
theorem get_activities_silent_on_collision :
    validOn planS1 5 = true ∧ validOn planS2 5 = true ∧
    planS1.source ≠ planS2.source ∧
    actA1.id = actA2.id ∧ actA1 ≠ actA2 ∧
    actA1 ∈ planS1.activities ∧ actA2 ∈ planS2.activities ∧
    get_plans exDir2 5 = [("s1", planS1), ("s2", planS2)] ∧
    get_activities exDir2 5 = [("a", actA2)] := by
  decide

end Faff

namespace Faff

/-! ## Round-trip lemmas (claim C2) -/

/-- Inserting an entry that is at most the head of a list leaves the list in
place behind it. -/
theorem insertByStart_head_le (e : TimelineEntry) (l : List TimelineEntry)
    (h : ∀ x ∈ l.head?, e.start ≤ x.start) : insertByStart e l = e :: l := by
  cases l with
  | nil => rfl
  | cons x xs =>
      unfold insertByStart
      rw [if_pos (h x rfl)]

/-- `sortByStart` is the identity on a timeline already sorted by `start`. -/
theorem sortByStart_eq_self (l : List TimelineEntry)
    (h : List.Chain' (fun a b : TimelineEntry => a.start ≤ b.start) l) :
    sortByStart l = l := by
  induction l with
  | nil => rfl
  | cons x xs ih =>
      rw [List.chain'_cons'] at h
      unfold sortByStart
      rw [ih h.2]
      exact insertByStart_head_le x xs h.1

/-- If each element of `l` maps to a document that parses back to `g` of it,
then `mapOpt` succeeds on `l` and parsing the results yields `l.map g`. -/
theorem mapOpt_roundtrip {α β γ : Type} (f : α → Option β) (h : β → γ) (g : α → γ) :
    ∀ l : List α, (∀ x ∈ l, ∃ y, f x = some y ∧ h y = g x) →
      ∃ ys, mapOpt f l = some ys ∧ ys.map h = l.map g := by
  intro l
  induction l with
  | nil => intro _; exact ⟨[], rfl, rfl⟩
  | cons x xs ih =>
      intro H
      obtain ⟨y, hy, hhy⟩ := H x (by simp)
      obtain ⟨ys, hys, hhys⟩ := ih (fun z hz => H z (by simp [hz]))
      refine ⟨y :: ys, ?_, ?_⟩
      · unfold mapOpt
        rw [hy, hys]
      · rw [List.map_cons, List.map_cons, hhy, hhys]

/-- A whole-minute instant survives the format/parse cycle. -/
theorem minute_roundtrip (t : Int) (h : (60 : Int) ∣ t) : Int.fdiv t 60 * 60 = t := by
  rw [Int.fdiv_eq_ediv_of_dvd h, Int.ediv_mul_cancel h]

/-- A note that is neither `None` nor empty is persisted as itself. -/
theorem truthyNote_eq_self (note : Option String) (h : note ≠ some "") :
    truthyNote note = note := by
  cases note with
  | none => rfl
  | some s =>
      show (if s = "" then none else some s) = some s
      rw [if_neg (fun hs : s = "" => h (by rw [hs]))]

/-- C2 (counterexample): the valid one-session log `secLog`, whose session
starts at 09:00:30, does not survive the round trip: formatting writes the
start at minute precision, so parsing returns `s1log` (start 09:00:00)
instead.  The log satisfies the session-order invariant and its activity is
registered in the activities map. -/
theorem round_trip_drops_seconds :
    startsStrictSorted secLog ∧ closedEntriesOrdered secLog ∧ openOnlyLast secLog ∧
    secLog.timeline = [{ activity := some actA, start := 32430, end_ := some 37800 }] ∧
    dget actsA actA.id = some actA ∧
    (format_log secLog actsA).map (fun d => Log.from_dict d actsA) = some s1log ∧
    s1log ≠ secLog := by
  refine ⟨?_, ?_, ?_, ?_, ?_, ?_, ?_⟩
  · unfold startsStrictSorted
    simp [secLog]
  · intro e he u hu
    have he' : e = { activity := some actA, start := 32430, end_ := some 37800 } := by
      simp only [secLog, List.mem_singleton] at he
      exact he
    subst he'
    have h37 : (37800 : Int) = u := Option.some_inj.mp hu
    rw [← h37]
    decide
  · unfold openOnlyLast
    decide
  · decide
  · decide
  · decide
  · decide

/-- C2 (amended): for every Log whose timeline is sorted by `start`, whose
instants are whole minutes, whose notes are not empty strings, and whose
entries' activities are registered in the activities map under their own id,
the round trip `Log.from_dict (format_log V)` preserves `date`, `timezone`
and the entire timeline (activity, start, end, note); summary entries keep
their activity id, duration and (non-empty) note, while `name`, `project` and
`meta` — carried only in derived-comment lines — come back empty. -/
theorem format_log_round_trip :
    ∀ (log : Log) (activities : List (String × Activity)),
      startsSorted log →
      (∀ e ∈ log.timeline, (60 : Int) ∣ e.start) →
      (∀ e ∈ log.timeline, ∀ u, e.end_ = some u → (60 : Int) ∣ u) →
      (∀ e ∈ log.timeline, e.note ≠ some "") →
      (∀ e ∈ log.timeline, ∃ a, e.activity = some a ∧ dget activities a.id = some a) →
      (∀ s ∈ log.summary, (dget activities s.activity.id).isSome) →
      (∀ s ∈ log.summary, s.note ≠ some "") →
      ∃ doc, format_log log activities = some doc ∧
        (Log.from_dict doc activities).date = log.date ∧
        (Log.from_dict doc activities).timezone = log.timezone ∧
        (Log.from_dict doc activities).timeline = log.timeline ∧
        (Log.from_dict doc activities).summary =
          log.summary.map (fun s =>
            { activity := { id := s.activity.id, name := none, project := none, meta := [] },
              duration := s.duration, note := s.note }) := by
  intro log activities hsorted hmins hmine hnote hact hsum hsumnote
  have htimeline :
      ∃ ts, mapOpt (format_timeline_entry activities) log.timeline = some ts ∧
        ts.map (TimelineEntry.from_dict activities log.timezone) = log.timeline.map id := by
    apply mapOpt_roundtrip
    intro e he
    obtain ⟨a, hea, hga⟩ := hact e he
    refine ⟨{ activity := a.id, startMin := Int.fdiv e.start 60,
              endMin := e.end_.map (fun u => Int.fdiv u 60),
              note := truthyNote e.note }, ?_, ?_⟩
    · simp only [format_timeline_entry, hea, hga]
    · unfold TimelineEntry.from_dict
      rw [hga, minute_roundtrip e.start (hmins e he), truthyNote_eq_self e.note (hnote e he)]
      have hend : (e.end_.map (fun u => Int.fdiv u 60)).map (fun m => m * 60) = e.end_ := by
        cases hu : e.end_ with
        | none => rfl
        | some u =>
            rw [Option.map_some', Option.map_some', minute_roundtrip u (hmine e he u hu)]
      rw [hend, ← hea]
      rfl
  have hsummary :
      ∃ ss, mapOpt (format_summary_entry activities) log.summary = some ss ∧
        ss.map SummaryEntry.from_dict =
          log.summary.map (fun s =>
            { activity := { id := s.activity.id, name := none, project := none, meta := [] },
              duration := s.duration, note := s.note }) := by
    apply mapOpt_roundtrip
    intro s hsmem
    refine ⟨{ activity := s.activity.id, duration := s.duration,
              note := truthyNote s.note }, ?_, ?_⟩
    · obtain ⟨a, ha⟩ := Option.isSome_iff_exists.mp (hsum s hsmem)
      simp only [format_summary_entry, ha]
    · unfold SummaryEntry.from_dict
      rw [truthyNote_eq_self s.note (hsumnote s hsmem)]
  obtain ⟨ts, hts, htsmap⟩ := htimeline
  obtain ⟨ss, hss, hssmap⟩ := hsummary
  refine ⟨{ date := log.date, timezone := log.timezone, summary := ss, timeline := ts }, ?_,
    rfl, rfl, ?_, ?_⟩
  · unfold format_log
    rw [sortByStart_eq_self log.timeline hsorted, hss, hts]
  · show ts.map (TimelineEntry.from_dict activities log.timezone) = log.timeline
    rw [htsmap, List.map_id]
  · exact hssmap

/-- Witness for the amended C2: the round trip on `s1log` (whole-minute
instants) reproduces the log exactly; its formatted document is the concrete
one with start minute 540 and end minute 630. -/
theorem format_log_round_trip_witness :
    format_log s1log actsA =
      some { date := 0, timezone := "UTC", summary := [],
             timeline := [{ activity := "a", startMin := 540, endMin := some 630 }] } ∧
    (Log.from_dict
        { date := 0, timezone := "UTC", summary := [],
          timeline := [{ activity := "a", startMin := 540, endMin := some 630 }] }
        actsA).timeline = s1log.timeline := by
  have h := format_log_round_trip s1log actsA
    (by unfold startsSorted
        simp [s1log])
    (by decide)
    (by intro e he u hu
        have he' : e = { activity := some actA, start := 32400, end_ := some 37800 } := by
          simp only [s1log, List.mem_singleton] at he
          exact he
        subst he'
        have h37 : (37800 : Int) = u := Option.some_inj.mp hu
        rw [← h37]
        decide)
    (by decide)
    (by intro e he
        have he' : e = { activity := some actA, start := 32400, end_ := some 37800 } := by
          simp only [s1log, List.mem_singleton] at he
          exact he
        subst he'
        exact ⟨actA, rfl, by decide⟩)
    (by decide) (by decide)
  obtain ⟨doc, hdoc, _, _, h3, _⟩ := h
  have hc : format_log s1log actsA =
      some { date := 0, timezone := "UTC", summary := [],
             timeline := [{ activity := "a", startMin := 540, endMin := some 630 }] } := by
    decide
  have hde : doc =
      { date := 0, timezone := "UTC", summary := [],
        timeline := [{ activity := "a", startMin := 540, endMin := some 630 }] } := by
    rw [hdoc] at hc
    exact Option.some_inj.mp hc
  subst hde
  exact ⟨hdoc, h3⟩

end Faff

namespace Faff

/-! ## Session-order invariant under reachability (claim C6) -/

/-- A list with a known last element is its `dropLast` plus that element. -/
theorem eq_dropLast_concat {α : Type} (l : List α) (e : α) (h : l.getLast? = some e) :
    l = l.dropLast ++ [e] :=
  (List.dropLast_append_getLast? e h).symm

/-- When a log has no active entry but a last entry, that entry is closed and
the `start` precondition bounds its end. -/
theorem last_closed_of_no_active (log : Log) (e : TimelineEntry)
    (hact : log.active_timeline_entry = none) (hlast : log.timeline.getLast? = some e) :
    ∃ u, e.end_ = some u := by
  unfold Log.active_timeline_entry at hact
  rw [hlast] at hact
  have hact' : (if e.end_ = none then some e else none) = none := hact
  by_cases he : e.end_ = none
  · rw [if_pos he] at hact'
    exact absurd hact' (by simp)
  · cases hu : e.end_ with
    | none => exact absurd hu he
    | some u => exact ⟨u, rfl⟩

/-- C6 (amended): every log reachable from an empty day through the session
operations, under the state machine's preconditions on the instants, satisfies
the session-order invariant with *non-strict* sorting: the timeline is sorted
by `start`, `start ≤ end` for every closed entry, and every entry except the
last is closed (so at most one open entry, at index `len - 1`).  Strict
sorting can fail when an operation reuses the previous entry's start
instant (see the counterexample). -/
theorem reachable_weak_session_order :
    ∀ log : Log, Reachable log → weak_session_order_invariant log := by
  intro log h
  unfold weak_session_order_invariant startsSorted closedEntriesOrdered openOnlyLast
  induction h with
  | empty date timezone =>
      refine ⟨List.chain'_nil, ?_, ?_⟩
      · intro e he; exact absurd he (by simp)
      · intro e he; exact absurd he (by simp)
  | start log a t note _hreach hpre ih =>
      obtain ⟨ihchain, ihclosed, ihopen⟩ := ih
      cases hact : log.active_timeline_entry with
      | none =>
          rw [start_eq_of_no_active log a t note hact]
          dsimp only
          have hmain : ∀ x ∈ log.timeline.getLast?, x.start ≤ t := by
            intro x hx
            obtain ⟨u, hu⟩ := last_closed_of_no_active log x hact hx
            have hxm : x ∈ log.timeline := List.mem_of_getLast?_eq_some hx
            have h1 : x.start ≤ u := ihclosed x hxm u hu
            have h2 : u ≤ t := by
              unfold startPrecond at hpre
              rw [hx] at hpre
              have hpre' :
                  (match x.end_ with
                   | some e => e ≤ t
                   | none => x.start ≤ t) := hpre
              rw [hu] at hpre'
              exact hpre'
            exact le_trans h1 h2
          refine ⟨?_, ?_, ?_⟩
          · rw [List.chain'_append]
            refine ⟨ihchain, List.chain'_singleton _, ?_⟩
            intro x hx y hy
            have hy' : ({ activity := some a, start := t, end_ := none, note := note } :
                TimelineEntry) = y := by simpa using hy
            rw [← hy']
            exact hmain x hx
          · intro e he u hu
            rcases List.mem_append.mp he with hin | hnew
            · exact ihclosed e hin u hu
            · have he' : e = { activity := some a, start := t, end_ := none, note := note } := by
                simpa using hnew
              subst he'
              exact absurd hu (by simp)
          · intro e he
            rw [List.dropLast_concat] at he
            have hne : log.timeline ≠ [] := List.ne_nil_of_mem he
            have hl : log.timeline.getLast? = some (log.timeline.getLast hne) :=
              List.getLast?_eq_getLast _ hne
            have hdec := eq_dropLast_concat log.timeline _ hl
            rw [hdec] at he
            rcases List.mem_append.mp he with hin | hx
            · exact ihopen e hin
            · have he' : e = log.timeline.getLast hne := by simpa using hx
              subst he'
              obtain ⟨u, hu⟩ := last_closed_of_no_active log _ hact hl
              rw [hu]
              rfl
      | some e =>
          rw [start_eq_of_active log a t note e hact]
          dsimp only
          obtain ⟨hlast, hopen⟩ := getLast_of_active log e hact
          have hdec := eq_dropLast_concat log.timeline e hlast
          have hpre' : e.start ≤ t := by
            unfold startPrecond at hpre
            rw [hlast] at hpre
            have h0 :
                (match e.end_ with
                 | some u => u ≤ t
                 | none => e.start ≤ t) := hpre
            rw [hopen] at h0
            exact h0
          have hchain0 : List.Chain' (fun a b : TimelineEntry => a.start ≤ b.start)
              (log.timeline.dropLast ++ [e]) := by rw [← hdec]; exact ihchain
          rw [List.chain'_append] at hchain0
          refine ⟨?_, ?_, ?_⟩
          · rw [List.chain'_append]
            refine ⟨hchain0.1, ?_, ?_⟩
            · rw [List.chain'_cons]
              refine ⟨hpre', List.chain'_singleton _⟩
            · intro x hx y hy
              have hy' : e.stop t = y := by simpa using hy
              rw [← hy']
              exact hchain0.2.2 x hx e (by simp)
          · intro z hz u hu
            rcases List.mem_append.mp hz with hin | hnew
            · have hzin : z ∈ log.timeline := by
                rw [hdec]
                exact List.mem_append.mpr (Or.inl hin)
              exact ihclosed z hzin u hu
            · rcases List.mem_cons.mp hnew with h1 | h2
              · subst h1
                have hu' : some t = some u := hu
                rw [← Option.some_inj.mp hu']
                exact hpre'
              · have h2' : z = { activity := some a, start := t, end_ := none, note := note } := by
                  simpa using h2
                subst h2'
                exact absurd hu (by simp)
          · intro z hz
            have hsplit : log.timeline.dropLast ++
                [e.stop t, { activity := some a, start := t, end_ := none, note := note }] =
                (log.timeline.dropLast ++ [e.stop t]) ++
                  [{ activity := some a, start := t, end_ := none, note := note }] := by
              rw [List.append_assoc]
              rfl
            rw [hsplit, List.dropLast_concat] at hz
            rcases List.mem_append.mp hz with hin | hx
            · exact ihopen z hin
            · have hz' : z = e.stop t := by simpa using hx
              subst hz'
              rfl
  | stop log t log' _hreach hpre hstop ih =>
      obtain ⟨ihchain, ihclosed, ihopen⟩ := ih
      cases hact : log.active_timeline_entry with
      | none =>
          unfold stopPrecond at hpre
          rw [hact] at hpre
          exact (hpre : False).elim
      | some e =>
          obtain ⟨hlast, _hopen⟩ := getLast_of_active log e hact
          have hpre' : e.start ≤ t := by
            unfold stopPrecond at hpre
            rw [hact] at hpre
            exact hpre
          rw [stop_eq_of_getLast log t e hlast] at hstop
          have hlog' := (Option.some_inj.mp hstop).symm
          subst hlog'
          dsimp only
          have hdec := eq_dropLast_concat log.timeline e hlast
          have hchain0 : List.Chain' (fun a b : TimelineEntry => a.start ≤ b.start)
              (log.timeline.dropLast ++ [e]) := by rw [← hdec]; exact ihchain
          rw [List.chain'_append] at hchain0
          refine ⟨?_, ?_, ?_⟩
          · rw [List.chain'_append]
            refine ⟨hchain0.1, List.chain'_singleton _, ?_⟩
            intro x hx y hy
            have hy' : e.stop t = y := by simpa using hy
            rw [← hy']
            exact hchain0.2.2 x hx e (by simp)
          · intro z hz u hu
            rcases List.mem_append.mp hz with hin | hnew
            · have hzin : z ∈ log.timeline := by
                rw [hdec]
                exact List.mem_append.mpr (Or.inl hin)
              exact ihclosed z hzin u hu
            · have hz' : z = e.stop t := by simpa using hnew
              subst hz'
              have hu' : some t = some u := hu
              rw [← Option.some_inj.mp hu']
              exact hpre'
          · intro z hz
            rw [List.dropLast_concat] at hz
            exact ihopen z hz

end Faff

namespace Faff

/-- C6 (counterexample): `twiceLog` is reachable from an empty day — start at
`t = 0`, then start again at `t = 0`, allowed by the state machine's
`t ≥ current.start` precondition — yet its timeline `[start 0 closed at 0,
start 0 open]` is not strictly sorted by `start`, so the session-order
invariant as claimed (strict sorting) fails on a reachable log. -/
theorem reachable_violates_strict_sorting :
    Reachable twiceLog ∧ ¬ session_order_invariant twiceLog := by
  constructor
  · have h1 : emptyLog.start_timeline_entry actA 0 none = onceLog := by
      rw [start_eq_of_no_active emptyLog actA 0 none (by decide)]
      decide
    have h2 : onceLog.start_timeline_entry actA 0 none = twiceLog := by
      rw [start_eq_of_active onceLog actA 0 none { activity := some actA, start := 0 } (by decide)]
      decide
    have r1 : Reachable emptyLog := Reachable.empty 0 "UTC"
    have r2 : Reachable onceLog := by
      have h := Reachable.start emptyLog actA 0 none r1 (show True from trivial)
      rw [h1] at h
      exact h
    have r3 : Reachable twiceLog := by
      have h := Reachable.start onceLog actA 0 none r2 (show (0 : Int) ≤ 0 by decide)
      rw [h2] at h
      exact h
    exact r3
  · intro hinv
    have hchain := hinv.1
    unfold session_order_invariant startsStrictSorted at hinv
    have hlt : (0 : Int) < 0 := by
      have h := hinv.1
      rw [show twiceLog.timeline =
          [{ activity := some actA, start := 0, end_ := some 0 },
           { activity := some actA, start := 0 }] from rfl] at h
      rw [List.chain'_cons] at h
      exact h.1
    exact absurd hlt (by decide)

/-- Witness for the amended C6: the invariant evaluated on the concrete
reachable log `s1log` (start 09:00, stop 10:30). -/
theorem reachable_weak_session_order_witness :
    weak_session_order_invariant s1log := by
  apply reachable_weak_session_order
  have h1 : emptyLog.start_timeline_entry actA 32400 none = openLog := by
    rw [start_eq_of_no_active emptyLog actA 32400 none (by decide)]
    decide
  have r2 : Reachable openLog := by
    have h := Reachable.start emptyLog actA 32400 none (Reachable.empty 0 "UTC")
      (show True from trivial)
    rw [h1] at h
    exact h
  have hstop : openLog.stop_active_timeline_entry 37800 = some s1log := by decide
  exact Reachable.stop openLog 37800 s1log r2 (show (32400 : Int) ≤ 37800 by decide) hstop

end Faff

namespace Faff

/-! ## Plan-selection lemmas (claims C1, C8) -/

theorem pickNewer_none_left (b : Option PlanFile) : pickNewer none b = b := by
  cases b <;> rfl

theorem pickNewer_none_right (a : Option PlanFile) : pickNewer a none = a := by
  cases a <;> rfl

theorem pickNewer_some_some (g f : PlanFile) :
    pickNewer (some g) (some f) = if g.fileDate < f.fileDate then some f else some g := rfl

theorem pickNewer_assoc (a b c : Option PlanFile) :
    pickNewer (pickNewer a b) c = pickNewer a (pickNewer b c) := by
  cases a with
  | none => rw [pickNewer_none_left, pickNewer_none_left]
  | some g =>
      cases b with
      | none => rw [pickNewer_none_right, pickNewer_none_left]
      | some x =>
          cases c with
          | none => rw [pickNewer_none_right, pickNewer_none_right]
          | some f =>
              rw [pickNewer_some_some, pickNewer_some_some]
              by_cases hgx : g.fileDate < x.fileDate
              · rw [if_pos hgx, pickNewer_some_some]
                by_cases hxf : x.fileDate < f.fileDate
                · rw [if_pos hxf, pickNewer_some_some,
                    if_pos (show g.fileDate < f.fileDate by linarith)]
                · rw [if_neg hxf, pickNewer_some_some, if_pos hgx]
              · rw [if_neg hgx, pickNewer_some_some]
                by_cases hxf : x.fileDate < f.fileDate
                · rw [if_pos hxf, pickNewer_some_some]
                · rw [if_neg hxf, pickNewer_some_some, if_neg hgx,
                    if_neg (show ¬ g.fileDate < f.fileDate from not_lt.mpr (by linarith [not_lt.mp hgx, not_lt.mp hxf]))]

theorem mergeDate_none_right (d : Option PDate) : mergeDate d none = d := rfl

theorem mergeDate_none_some (f : PlanFile) : mergeDate none (some f) = some f.fileDate := rfl

theorem mergeDate_some_some (d0 : PDate) (f : PlanFile) :
    mergeDate (some d0) (some f) =
      if d0 < f.fileDate then some f.fileDate else some d0 := rfl

theorem mergeDate_pickNewer (d : Option PDate) (b r : Option PlanFile) :
    mergeDate (mergeDate d b) r = mergeDate d (pickNewer b r) := by
  cases b with
  | none => rw [mergeDate_none_right, pickNewer_none_left]
  | some g =>
      cases r with
      | none => rw [pickNewer_none_right, mergeDate_none_right]
      | some f =>
          rw [pickNewer_some_some]
          cases d with
          | none =>
              rw [mergeDate_none_some]
              by_cases hgf : g.fileDate < f.fileDate
              · rw [if_pos hgf, mergeDate_some_some, mergeDate_none_some, if_pos hgf]
              · rw [if_neg hgf, mergeDate_some_some, mergeDate_none_some, if_neg hgf]
          | some d0 =>
              rw [mergeDate_some_some]
              by_cases hdg : d0 < g.fileDate
              · rw [if_pos hdg, mergeDate_some_some]
                by_cases hgf : g.fileDate < f.fileDate
                · rw [if_pos hgf, if_pos hgf, mergeDate_some_some,
                    if_pos (show d0 < f.fileDate by linarith)]
                · rw [if_neg hgf, if_neg hgf, mergeDate_some_some, if_pos hdg]
              · rw [if_neg hdg, mergeDate_some_some]
                by_cases hgf : g.fileDate < f.fileDate
                · rw [if_pos hgf, mergeDate_some_some]
                · rw [if_neg hgf, mergeDate_some_some, if_neg hdg,
                    if_neg (show ¬ d0 < f.fileDate from not_lt.mpr (by linarith [not_lt.mp hgf, not_lt.mp hdg]))]

/-- Folding the `newest_file` step from any accumulator: the result is the
accumulator combined with the newest qualifying file of the list. -/
theorem newest_file_fold (date : PDate) (s : String) :
    ∀ (dir : List PlanFile) (acc : Option PlanFile),
      dir.foldl
        (fun acc f =>
          if f.fsource = s ∧ f.fileDate ≤ date then
            match acc with
            | none => some f
            | some g => if g.fileDate < f.fileDate then some f else some g
          else acc)
        acc =
      pickNewer acc (newest_file dir date s) := by
  intro dir
  induction dir with
  | nil =>
      intro acc
      show acc = pickNewer acc none
      rw [pickNewer_none_right]
  | cons x rest ih =>
      intro acc
      have hstep : ∀ a : Option PlanFile,
          (if x.fsource = s ∧ x.fileDate ≤ date then
            match a with
            | none => some x
            | some g => if g.fileDate < x.fileDate then some x else some g
          else a) =
          pickNewer a (if x.fsource = s ∧ x.fileDate ≤ date then some x else none) := by
        intro a
        by_cases hq : x.fsource = s ∧ x.fileDate ≤ date
        · rw [if_pos hq, if_pos hq]
          cases a <;> rfl
        · rw [if_neg hq, if_neg hq, pickNewer_none_right]
      have hnf : newest_file (x :: rest) date s =
          pickNewer (if x.fsource = s ∧ x.fileDate ≤ date then some x else none)
            (newest_file rest date s) := by
        have h := ih (if x.fsource = s ∧ x.fileDate ≤ date then some x else none)
        rw [← h]
        unfold newest_file
        rw [List.foldl_cons]
      rw [List.foldl_cons, ih, hnf]
      show pickNewer
          (if x.fsource = s ∧ x.fileDate ≤ date then
            match acc with
            | none => some x
            | some g => if g.fileDate < x.fileDate then some x else some g
          else acc)
          (newest_file rest date s) = _
      rw [hstep acc, pickNewer_assoc]

/-- `newest_file` on a cons cell. -/
theorem newest_file_cons (date : PDate) (s : String) (x : PlanFile) (rest : List PlanFile) :
    newest_file (x :: rest) date s =
      pickNewer (if x.fsource = s ∧ x.fileDate ≤ date then some x else none)
        (newest_file rest date s) := by
  have h := newest_file_fold date s rest
    (if x.fsource = s ∧ x.fileDate ≤ date then some x else none)
  rw [← h]
  unfold newest_file
  rw [List.foldl_cons]

/-- A `some` result of `newest_file` is a qualifying member of the
directory. -/
theorem newest_file_mem (dir : List PlanFile) (date : PDate) (s : String) (f : PlanFile)
    (h : newest_file dir date s = some f) :
    f ∈ dir ∧ f.fsource = s ∧ f.fileDate ≤ date := by
  induction dir with
  | nil => exact absurd h (by simp [newest_file])
  | cons x rest ih =>
      rw [newest_file_cons] at h
      by_cases hq : x.fsource = s ∧ x.fileDate ≤ date
      · rw [if_pos hq] at h
        cases hr : newest_file rest date s with
        | none =>
            rw [hr, pickNewer_none_right] at h
            have hfx : x = f := Option.some_inj.mp h
            subst hfx
            exact ⟨by simp, hq.1, hq.2⟩
        | some g =>
            rw [hr, pickNewer_some_some] at h
            by_cases hxg : x.fileDate < g.fileDate
            · rw [if_pos hxg] at h
              have hfg : g = f := Option.some_inj.mp h
              subst hfg
              obtain ⟨hm, hs', hd⟩ := ih hr
              exact ⟨List.mem_cons_of_mem x hm, hs', hd⟩
            · rw [if_neg hxg] at h
              have hfx : x = f := Option.some_inj.mp h
              subst hfx
              exact ⟨by simp, hq.1, hq.2⟩
      · rw [if_neg hq, pickNewer_none_left] at h
        obtain ⟨hm, hs', hd⟩ := ih h
        exact ⟨List.mem_cons_of_mem x hm, hs', hd⟩

end Faff

namespace Faff

/-- Folding the `candidates` step of `plan_files` from any dict: the date
recorded for source `s` merges the dict's previous value with the newest
qualifying file. -/
theorem candidates_fold (date : PDate) (s : String) :
    ∀ (dir : List PlanFile) (cands : List (String × PDate)),
      dget (dir.foldl
        (fun cands f =>
          if date < f.fileDate then cands
          else
            match dget cands f.fsource with
            | none => dset cands f.fsource f.fileDate
            | some d => if d < f.fileDate then dset cands f.fsource f.fileDate else cands)
        cands) s =
      mergeDate (dget cands s) (newest_file dir date s) := by
  intro dir
  induction dir with
  | nil =>
      intro cands
      rw [show newest_file ([] : List PlanFile) date s = none from rfl, mergeDate_none_right]
      rfl
  | cons x rest ih =>
      intro cands
      rw [List.foldl_cons, ih, newest_file_cons, ← mergeDate_pickNewer]
      have hsuff : dget
          (if date < x.fileDate then cands
           else
             match dget cands x.fsource with
             | none => dset cands x.fsource x.fileDate
             | some d => if d < x.fileDate then dset cands x.fsource x.fileDate else cands) s =
          mergeDate (dget cands s)
            (if x.fsource = s ∧ x.fileDate ≤ date then some x else none) := by
        by_cases hd : date < x.fileDate
        · rw [if_pos hd,
            if_neg (show ¬ (x.fsource = s ∧ x.fileDate ≤ date) from
              fun hq => absurd hq.2 (not_le.mpr hd)),
            mergeDate_none_right]
        · rw [if_neg hd]
          by_cases hsx : x.fsource = s
          · rw [hsx, if_pos ⟨rfl, not_lt.mp hd⟩]
            cases hdc : dget cands s with
            | none =>
                show dget (dset cands s x.fileDate) s = _
                rw [dget_dset_self, mergeDate_none_some]
            | some d =>
                show dget (if d < x.fileDate then dset cands s x.fileDate else cands) s = _
                rw [mergeDate_some_some]
                by_cases hdx : d < x.fileDate
                · rw [if_pos hdx, if_pos hdx, dget_dset_self]
                · rw [if_neg hdx, if_neg hdx, hdc]
          · rw [if_neg (show ¬ (x.fsource = s ∧ x.fileDate ≤ date) from fun hq => hsx hq.1),
              mergeDate_none_right]
            cases hdc : dget cands x.fsource with
            | none =>
                show dget (dset cands x.fsource x.fileDate) s = _
                rw [dget_dset_ne _ _ _ _ (fun h : s = x.fsource => hsx h.symm)]
            | some d =>
                show dget (if d < x.fileDate then dset cands x.fsource x.fileDate else cands) s = _
                by_cases hdx : d < x.fileDate
                · rw [if_pos hdx, dget_dset_ne _ _ _ _ (fun h : s = x.fsource => hsx h.symm)]
                · rw [if_neg hdx]
      rw [hsuff]

/-- The `candidates` dict of `plan_files` holds, per source, exactly the date
of the newest file of that source not after the query date. -/
theorem dget_candidates (dir : List PlanFile) (date : PDate) (s : String) :
    dget (candidates dir date) s = (newest_file dir date s).map (fun f => f.fileDate) := by
  unfold candidates
  rw [candidates_fold]
  cases newest_file dir date s with
  | none => rfl
  | some f => rfl

/-- `dset` keeps association-list keys duplicate-free. -/
theorem dset_map_fst_nodup {α : Type} (m : List (String × α)) (k : String) (v : α)
    (h : (m.map Prod.fst).Nodup) : ((dset m k v).map Prod.fst).Nodup := by
  unfold dset
  by_cases hf : (m.find? (fun p => p.1 == k)).isSome
  · rw [if_pos hf]
    have hmap : (m.map (fun p => if p.1 == k then (k, v) else p)).map Prod.fst =
        m.map Prod.fst := by
      rw [List.map_map]
      apply List.map_congr_left
      intro p _
      by_cases hp : p.1 = k
      · simp [hp]
      · simp [hp]
    rw [hmap]
    exact h
  · rw [if_neg hf, List.map_append]
    have hk : k ∉ m.map Prod.fst := by
      intro hkm
      obtain ⟨p, hpm, hpk⟩ := List.mem_map.mp hkm
      rw [Option.not_isSome_iff_eq_none, List.find?_eq_none] at hf
      exact absurd (by simp [hpk] : (p.1 == k) = true) (hf p hpm)
    simp [List.nodup_append, h, hk]

/-- The keys of the `candidates` dict are duplicate-free. -/
theorem candidates_keys_nodup (dir : List PlanFile) (date : PDate) :
    ((candidates dir date).map Prod.fst).Nodup := by
  unfold candidates
  suffices hgen : ∀ (l : List PlanFile) (cands : List (String × PDate)),
      (cands.map Prod.fst).Nodup →
      ((l.foldl
        (fun cands f =>
          if date < f.fileDate then cands
          else
            match dget cands f.fsource with
            | none => dset cands f.fsource f.fileDate
            | some d => if d < f.fileDate then dset cands f.fsource f.fileDate else cands)
        cands).map Prod.fst).Nodup by
    exact hgen dir [] (by simp)
  intro l
  induction l with
  | nil => intro cands h; exact h
  | cons x rest ih =>
      intro cands h
      rw [List.foldl_cons]
      apply ih
      by_cases hd : date < x.fileDate
      · rw [if_pos hd]; exact h
      · rw [if_neg hd]
        cases hdc : dget cands x.fsource with
        | none =>
            exact dset_map_fst_nodup cands x.fsource x.fileDate h
        | some d =>
            show ((if d < x.fileDate then dset cands x.fsource x.fileDate else cands).map
              Prod.fst).Nodup
            by_cases hdx : d < x.fileDate
            · rw [if_pos hdx]
              exact dset_map_fst_nodup cands x.fsource x.fileDate h
            · rw [if_neg hdx]
              exact h

/-- A `dget` hit names a member of the association list. -/
theorem mem_of_dget {α : Type} (m : List (String × α)) (s : String) (v : α)
    (h : dget m s = some v) : (s, v) ∈ m := by
  unfold dget at h
  cases hf : m.find? (fun p => p.1 == s) with
  | none => rw [hf] at h; exact absurd h (by simp)
  | some p =>
      rw [hf] at h
      have hv : p.2 = v := by simpa using h
      have hpm := List.mem_of_find?_eq_some hf
      have hps : p.1 = s := by simpa using List.find?_some hf
      have hp : p = (s, v) := by
        cases p
        simp only [Prod.mk.injEq]
        exact ⟨hps, hv⟩
      rw [← hp]
      exact hpm

/-- With duplicate-free keys, membership determines `dget`. -/
theorem dget_eq_some_of_mem {α : Type} :
    ∀ (m : List (String × α)) (s : String) (v : α),
      (m.map Prod.fst).Nodup → (s, v) ∈ m → dget m s = some v := by
  intro m
  induction m with
  | nil => intro s v _ hm; exact absurd hm (by simp)
  | cons p rest ih =>
      intro s v hnd hm
      rw [dget_cons]
      rw [List.map_cons] at hnd
      have hnd' := List.nodup_cons.mp hnd
      rcases List.mem_cons.mp hm with h1 | h2
      · rw [← h1]
        simp
      · have hne : p.1 ≠ s := by
          intro hp
          have hsmem : s ∈ rest.map Prod.fst := List.mem_map.mpr ⟨(s, v), h2, rfl⟩
          rw [hp] at hnd'
          exact absurd hsmem hnd'.1
        rw [if_neg hne]
        exact ih s v hnd'.2 h2

end Faff

namespace Faff

/-- `get_plans_insert` leaves every other source's entry alone. -/
theorem dget_insert_other (plans : List (String × Plan)) (plan : Plan) (s : String)
    (h : plan.source ≠ s) : dget (get_plans_insert plans plan) s = dget plans s := by
  unfold get_plans_insert
  by_cases hi : (dget plans plan.source).isNone
  · rw [if_pos hi, dget_dset_ne _ _ _ _ (fun hh : s = plan.source => h hh.symm)]
  · rw [if_neg hi]

/-- `get_plans_replace` leaves every other source's entry alone. -/
theorem dget_replace_other (plans1 : List (String × Plan)) (plan : Plan) (s : String)
    (h : plan.source ≠ s) : dget (get_plans_replace plans1 plan) s = dget plans1 s := by
  unfold get_plans_replace
  cases hp : dget plans1 plan.source with
  | none => rfl
  | some p =>
      show dget (if p.valid_from < plan.valid_from then dset plans1 plan.source plan
        else plans1) s = _
      by_cases hv : p.valid_from < plan.valid_from
      · rw [if_pos hv, dget_dset_ne _ _ _ _ (fun hh : s = plan.source => h hh.symm)]
      · rw [if_neg hv]

/-- Inserting a source not present yet records its plan. -/
theorem dget_insert_replace_self (plans : List (String × Plan)) (plan : Plan)
    (hnone : dget plans plan.source = none) :
    dget (get_plans_replace (get_plans_insert plans plan) plan) plan.source = some plan := by
  unfold get_plans_insert
  have hcond : (dget plans plan.source).isNone = true := by rw [hnone]; rfl
  rw [if_pos hcond]
  unfold get_plans_replace
  rw [dget_dset_self]
  show dget (if plan.valid_from < plan.valid_from then
      dset (dset plans plan.source plan) plan.source plan
    else dset plans plan.source plan) plan.source = _
  rw [if_neg (lt_irrefl _), dget_dset_self]

/-- A `get_plans` step for a file of a different source does not change the
entry of source `s`. -/
theorem get_plans_step_other (date : PDate) (acc : List (String × Plan)) (f : PlanFile)
    (s : String) (h : f.plan.source ≠ s) :
    dget (get_plans_step date acc f) s = dget acc s := by
  unfold get_plans_step
  by_cases hA : date < f.plan.valid_from
  · rw [if_pos hA]
  · rw [if_neg hA]
    by_cases hB : (match f.plan.valid_until with
                   | some u => decide (u < date)
                   | none => false) = true
    · rw [if_pos hB]
    · rw [if_neg hB, dget_replace_other _ _ _ h, dget_insert_other _ _ _ h]

/-- A `get_plans` step for a file of source `s` not seen yet records its plan
exactly when the plan is valid on the date. -/
theorem get_plans_step_own (date : PDate) (acc : List (String × Plan)) (f : PlanFile)
    (hnone : dget acc f.plan.source = none) :
    dget (get_plans_step date acc f) f.plan.source =
      if validOn f.plan date then some f.plan else none := by
  unfold get_plans_step validOn
  by_cases hA : date < f.plan.valid_from
  · rw [if_pos hA, hnone, if_neg]
    intro hv
    rw [Bool.and_eq_true, decide_eq_true_eq] at hv
    linarith [hv.1]
  · rw [if_neg hA]
    by_cases hB : (match f.plan.valid_until with
                   | some u => decide (u < date)
                   | none => false) = true
    · rw [if_pos hB, hnone, if_neg]
      intro hv
      rw [Bool.and_eq_true] at hv
      cases hu : f.plan.valid_until with
      | none => rw [hu] at hB; exact absurd hB (by simp)
      | some u =>
          rw [hu] at hB hv
          rw [decide_eq_true_eq] at hB
          have := hv.2
          rw [decide_eq_true_eq] at this
          linarith
    · rw [if_neg hB, dget_insert_replace_self acc f.plan hnone, if_pos]
      rw [Bool.and_eq_true, decide_eq_true_eq]
      refine ⟨not_lt.mp hA, ?_⟩
      cases hu : f.plan.valid_until with
      | none => rfl
      | some u =>
          rw [hu] at hB
          rw [decide_eq_true_eq]
          have : ¬ u < date := by
            intro hlt
            exact hB (by rw [decide_eq_true_eq]; exact hlt)
          linarith [not_lt.mp this]

/-- Folding `get_plans_step` over files of other sources only does not change
the entry of source `s`. -/
theorem get_plans_fold_other (date : PDate) (s : String) :
    ∀ (l : List PlanFile) (acc : List (String × Plan)),
      (∀ f ∈ l, f.plan.source ≠ s) →
      dget (l.foldl (get_plans_step date) acc) s = dget acc s := by
  intro l
  induction l with
  | nil => intro acc _; rfl
  | cons x rest ih =>
      intro acc h
      rw [List.foldl_cons, ih _ (fun g hg => h g (by simp [hg])),
        get_plans_step_other date acc x s (h x (by simp))]

/-- Folding `get_plans_step` over a list containing exactly one file of
source `s` yields that file's plan iff it is valid on the date. -/
theorem get_plans_fold_split (date : PDate) (s : String) (l₁ l₂ : List PlanFile)
    (f : PlanFile) (hs : f.plan.source = s)
    (h₁ : ∀ g ∈ l₁, g.plan.source ≠ s) (h₂ : ∀ g ∈ l₂, g.plan.source ≠ s) :
    dget ((l₁ ++ f :: l₂).foldl (get_plans_step date) []) s =
      if validOn f.plan date then some f.plan else none := by
  rw [List.foldl_append, List.foldl_cons,
    get_plans_fold_other date s l₂ _ h₂]
  have hl1 : dget (l₁.foldl (get_plans_step date) []) s = none := by
    rw [get_plans_fold_other date s l₁ [] h₁]
    rfl
  rw [← hs]
  exact get_plans_step_own date _ f (by rw [hs]; exact hl1)

/-- A file delivered by `plan_files` is a directory member whose filename
components form a candidate entry. -/
theorem plan_files_mem (dir : List PlanFile) (date : PDate) (g : PlanFile)
    (hg : g ∈ plan_files dir date) :
    g ∈ dir ∧ (g.fsource, g.fileDate) ∈ candidates dir date := by
  unfold plan_files at hg
  obtain ⟨c, hc, hfind⟩ := List.mem_filterMap.mp hg
  have hgdir := List.mem_of_find?_eq_some hfind
  have hpred := List.find?_some hfind
  rw [Bool.and_eq_true, beq_iff_eq, beq_iff_eq] at hpred
  refine ⟨hgdir, ?_⟩
  rw [hpred.1, hpred.2, Prod.mk.eta]
  exact hc

/-- The filename sources of the files delivered by `plan_files` are
pairwise distinct. -/
theorem plan_files_sources_nodup (dir : List PlanFile) (date : PDate) :
    ((plan_files dir date).map (fun f => f.fsource)).Nodup := by
  unfold plan_files
  have hnd := candidates_keys_nodup dir date
  revert hnd
  generalize candidates dir date = cands
  induction cands with
  | nil => intro _; simp
  | cons c rest ih =>
      intro hnd
      rw [List.map_cons] at hnd
      have hnd' := List.nodup_cons.mp hnd
      rw [List.filterMap_cons]
      cases hF : dir.find? (fun f => f.fsource == c.1 && f.fileDate == c.2) with
      | none => exact ih hnd'.2
      | some g =>
          rw [List.map_cons, List.nodup_cons]
          refine ⟨?_, ih hnd'.2⟩
          intro hmem
          obtain ⟨g', hg', hgs⟩ := List.mem_map.mp hmem
          obtain ⟨c', hc', hfind'⟩ := List.mem_filterMap.mp hg'
          have hpred' := List.find?_some hfind'
          rw [Bool.and_eq_true, beq_iff_eq, beq_iff_eq] at hpred'
          have hpred := List.find?_some hF
          rw [Bool.and_eq_true, beq_iff_eq, beq_iff_eq] at hpred
          apply hnd'.1
          rw [← hpred.1, ← hgs, hpred'.1]
          exact List.mem_map.mpr ⟨c', hc', rfl⟩

end Faff

namespace Faff

/-- C1 (amended): under unique plan filenames (no two files share source and
date) and filename sources matching the plans' `source` fields, `get_plans`
returns, for a source `s`, exactly the plan of the single file of `s` with
the greatest filename date `≤ D` — and only if that one plan passes the
`valid_from`/`valid_until` predicates.  Older files of the source are never
consulted: when the newest file's plan is invalid on `D`, the source is
absent. -/
theorem get_plans_newest_file_only :
    ∀ (dir : List PlanFile) (date : PDate) (s : String),
      (dir.map (fun f => (f.fsource, f.fileDate))).Nodup →
      (∀ f ∈ dir, f.plan.source = f.fsource) →
      dget (get_plans dir date) s =
        (match newest_file dir date s with
         | none => none
         | some f => if validOn f.plan date then some f.plan else none) := by
  intro dir date s hnd h2
  cases hnf : newest_file dir date s with
  | none =>
      have hcand : dget (candidates dir date) s = none := by
        rw [dget_candidates, hnf]
        rfl
      have hall : ∀ g ∈ plan_files dir date, g.plan.source ≠ s := by
        intro g hg
        obtain ⟨hgdir, hgc⟩ := plan_files_mem dir date g hg
        rw [h2 g hgdir]
        intro hgs
        rw [hgs] at hgc
        have hsome := dget_eq_some_of_mem _ _ _ (candidates_keys_nodup dir date) hgc
        rw [hcand] at hsome
        exact absurd hsome (by simp)
      unfold get_plans
      rw [get_plans_fold_other date s _ [] hall]
      rfl
  | some f =>
      obtain ⟨hfdir, hfs, hfle⟩ := newest_file_mem dir date s f hnf
      have hcand : dget (candidates dir date) s = some f.fileDate := by
        rw [dget_candidates, hnf]
        rfl
      have hcmem : (s, f.fileDate) ∈ candidates dir date := mem_of_dget _ _ _ hcand
      have hfindSome : (dir.find? (fun x => x.fsource == s && x.fileDate == f.fileDate)).isSome := by
        rw [List.find?_isSome]
        exact ⟨f, hfdir, by rw [Bool.and_eq_true, beq_iff_eq, beq_iff_eq]; exact ⟨hfs, rfl⟩⟩
      obtain ⟨g, hgfind⟩ := Option.isSome_iff_exists.mp hfindSome
      have hgdir := List.mem_of_find?_eq_some hgfind
      have hgpred := List.find?_some hgfind
      rw [Bool.and_eq_true, beq_iff_eq, beq_iff_eq] at hgpred
      have hgf : g = f := by
        apply List.inj_on_of_nodup_map hnd hgdir hfdir
        rw [hgpred.1, hgpred.2, hfs]
      subst hgf
      have hfpf : g ∈ plan_files dir date := by
        unfold plan_files
        apply List.mem_filterMap.mpr
        refine ⟨(s, g.fileDate), hcmem, ?_⟩
        exact hgfind
      obtain ⟨l₁, l₂, hsplit⟩ := List.append_of_mem hfpf
      have hnodup := plan_files_sources_nodup dir date
      rw [hsplit, List.map_append, List.map_cons] at hnodup
      have hnd3 := List.nodup_append.mp hnodup
      have hcons := List.nodup_cons.mp hnd3.2.1
      have hmem1 : ∀ z ∈ l₁, z ∈ plan_files dir date := by
        intro z hz
        rw [hsplit]
        exact List.mem_append.mpr (Or.inl hz)
      have hmem2 : ∀ z ∈ l₂, z ∈ plan_files dir date := by
        intro z hz
        rw [hsplit]
        exact List.mem_append.mpr (Or.inr (List.mem_cons_of_mem g hz))
      have h₁ : ∀ z ∈ l₁, z.plan.source ≠ s := by
        intro z hz
        rw [h2 z (plan_files_mem dir date z (hmem1 z hz)).1]
        intro hzs
        exact hnd3.2.2 (List.mem_map.mpr ⟨z, hz, rfl⟩)
          (by rw [hzs, ← hgpred.1]; exact List.mem_cons_self _ _)
      have h₂ : ∀ z ∈ l₂, z.plan.source ≠ s := by
        intro z hz
        rw [h2 z (plan_files_mem dir date z (hmem2 z hz)).1]
        intro hzs
        apply hcons.1
        rw [hgpred.1]
        rw [← hzs]
        exact List.mem_map.mpr ⟨z, hz, rfl⟩
      unfold get_plans
      rw [hsplit]
      exact get_plans_fold_split date s l₁ l₂ g
        (by rw [h2 g hfdir]; exact hfs) h₁ h₂

/-- Witness for the amended C1: on the two-file directory `exDir` queried at
day 11, the newest file (date 10) is valid, and `get_plans` returns its
plan. -/
theorem get_plans_newest_file_only_witness :
    dget (get_plans exDir 11) "s" = some planNew := by
  have h := get_plans_newest_file_only exDir 11 "s" (by decide) (by decide)
  rw [h]
  decide

/-- C1 (counterexample): on the directory `exDir` of source `s` — an old
unbounded-validity file of date 1 and a newer file of date 10 whose plan
expires on day 12 — queried at day 15, the claim's selection (greatest
`valid_from ≤ 15` among files valid on 15, i.e. the old plan) is non-empty,
but `get_plans` returns nothing for `s`: `plan_files` pre-selects only the
newest file per source by filename date, and its plan fails the
`valid_until` check, so the older still-valid file is never consulted. -/
theorem plan_selection_misses_older_valid_file :
    validOn planOld 15 = true ∧ planOld.source = "s" ∧
    validOn planNew 15 = false ∧
    spec_selected_plan exDir 15 "s" = some planOld ∧
    dget (get_plans exDir 15) "s" = none := by
  decide

/-- `getLast?` of a cons, phrased by cases on the tail's `getLast?`. -/
theorem getLast?_cons_cases {α : Type} (a : α) (l : List α) :
    (a :: l).getLast? =
      (match l.getLast? with
       | some b => some b
       | none => some a) := by
  cases hl : l.getLast? with
  | none =>
      have hnil : l = [] := by
        cases l with
        | nil => rfl
        | cons x xs =>
            rw [List.getLast?_eq_getLast _ (by simp)] at hl
            exact absurd hl (by simp)
      subst hnil
      rfl
  | some b =>
      cases l with
      | nil => simp at hl
      | cons x xs => rw [List.getLast?_cons_cons, hl]

/-- The dict comprehension of `get_activities`, folded over a flat activity
list: a key holds the last activity with that id, else the initial dict's
entry. -/
theorem dget_activity_fold (i : String) :
    ∀ (l : List Activity) (m0 : List (String × Activity)),
      dget (l.foldl (fun m a => dset m a.id a) m0) i =
        (match (l.filter (fun a => a.id == i)).getLast? with
         | some a => some a
         | none => dget m0 i) := by
  intro l
  induction l with
  | nil => intro m0; rfl
  | cons a l ih =>
      intro m0
      rw [List.foldl_cons, ih, List.filter_cons]
      by_cases hai : a.id = i
      · rw [if_pos (by simp [hai]), getLast?_cons_cases]
        cases hfl : (l.filter (fun a => a.id == i)).getLast? with
        | none =>
            show dget (dset m0 a.id a) i = some a
            rw [hai, dget_dset_self]
        | some b => rfl
      · rw [if_neg (by simp [hai])]
        cases hfl : (l.filter (fun a => a.id == i)).getLast? with
        | none =>
            show dget (dset m0 a.id a) i = dget m0 i
            rw [dget_dset_ne _ _ _ _ (fun h : i = a.id => hai h.symm)]
        | some b => rfl

/-- Flattening the nested fold of `get_activities`. -/
theorem foldl_plans_flatten :
    ∀ (ps : List (String × Plan)) (m0 : List (String × Activity)),
      ps.foldl (fun m sp => sp.2.activities.foldl (fun m a => dset m a.id a) m) m0 =
        (ps.flatMap (fun sp => sp.2.activities)).foldl (fun m a => dset m a.id a) m0 := by
  intro ps
  induction ps with
  | nil => intro m0; rfl
  | cons sp rest ih =>
      intro m0
      rw [List.foldl_cons, ih, List.flatMap_cons, List.foldl_append]

/-- C8 (amended): when plans valid on the date carry colliding activity ids,
`get_activities` raises no error: for every id, it returns the *last*
activity with that id among the activities of the selected plans in
iteration order (later sources silently shadow earlier ones); an id held by
no selected plan is absent. -/
theorem get_activities_last_plan_wins :
    ∀ (dir : List PlanFile) (date : PDate) (i : String),
      dget (get_activities dir date) i =
        (((get_plans dir date).flatMap (fun sp => sp.2.activities)).filter
          (fun a => a.id == i)).getLast? := by
  intro dir date i
  unfold get_activities
  rw [foldl_plans_flatten, dget_activity_fold]
  cases (((get_plans dir date).flatMap (fun sp => sp.2.activities)).filter
      (fun a => a.id == i)).getLast? with
  | none => rfl
  | some a => rfl

end Faff
